import Mathlib

/-!
Shallow embedding of the causal-history engine of this repository
(crates/loro-core/src/dag/test.rs: `TestNode`, `TestDag` and its
operations `get`, `contains`, `roots`, `push`, `merge`,
`_try_push_node`), together with:

* a system-level small-step semantics (`Step`, `Reach`) describing any
  number of replica instances evolving by `push` (with `len >= 1`) and
  pairwise `merge`, as in the repository's property tests;
* well-formedness invariants of reachable states and their preservation
  proofs;
* the theorems settling the frozen claims.

Machine integers: the source uses `u32` counters and lamport values and
`usize` lengths.  All arithmetic is modelled on `Nat`; the source is test
code compiled with debug assertions, where any overflowing addition
panics, so no wrapped state is reachable and the `Nat` model agrees with
the source on every reachable state.

Hash maps: `FxHashMap<ClientID, _>` is modelled as an association list
with first-match lookup; keys are inserted at most once (the operations
only use entry-or-insert semantics), so lookup agrees with the map.
Iteration order of `FxHashMap` is unspecified; the association list
fixes one order.  All claim statements that depend on more than one
map entry are phrased so that they are insensitive to this order
(set-style equalities).
-/

/-- Identifier of one operation: pair of replica (client) id and
per-replica counter (src: `loro_core::id::ID`). -/
structure ID where
  clientId : Nat
  counter : Nat
deriving DecidableEq

/-- One run-length span of operations (src: `TestNode` in dag/test.rs). -/
structure TestNode where
  id : ID
  lamport : Nat
  len : Nat
  deps : List ID
deriving DecidableEq

/-- State of one replica's causal DAG (src: `TestDag` in dag/test.rs). -/
structure TestDag where
  nodes : List (Nat × List TestNode)
  frontier : List ID
  version_vec : List (Nat × Nat)
  next_lamport : Nat
  client_id : Nat
deriving DecidableEq

/-- First-match association-list lookup (model of `HashMap::get`). -/
def alookup {α : Type} : List (Nat × α) → Nat → Option α
  | [], _ => none
  | (k', v) :: rest, k => if k' = k then some v else alookup rest k

/-- Model of `HashMap::entry(k).or_insert(dflt)` followed by applying `f`
to the entry (covers both `or_insert(0); *x += len` and plain
`insert(k, v)` via a constant `f`). -/
def aModify {α : Type} : List (Nat × α) → Nat → α → (α → α) → List (Nat × α)
  | [], k, dflt, f => [(k, f dflt)]
  | (k', v) :: rest, k, dflt, f =>
    if k' = k then (k', f v) :: rest else (k', v) :: aModify rest k dflt f

/-- Node list stored for a client (defaulting to empty). -/
def nodesOf (d : TestDag) (c : Nat) : List TestNode :=
  (alookup d.nodes c).getD []

/-- Version-vector entry for a client. -/
def vvGet (d : TestDag) (c : Nat) : Option Nat :=
  alookup d.version_vec c

/-- All stored nodes of a dag. -/
def allNodes (d : TestDag) : List TestNode :=
  (d.nodes.map Prod.snd).flatten

/-- Src: `TestDag::contains` — an id is known iff its counter is strictly
below the version-vector entry of its client. -/
def TestDag.contains (d : TestDag) (id : ID) : Bool :=
  match vvGet d id.clientId with
  | some x => id.counter < x
  | none => false

/-- Src: `Dag::get` for `TestDag` — find the node of the client whose
span contains the id. -/
def TestDag.get (d : TestDag) (id : ID) : Option TestNode :=
  (alookup d.nodes id.clientId).bind fun l =>
    l.find? fun node =>
      node.id.counter ≤ id.counter && id.counter < node.id.counter + node.len

/-- Src: `Dag::roots` for `TestDag` — the first stored node of every
client (the stored vectors are never empty, so `&v[0]` is modelled by
`head?`). -/
def TestDag.roots (d : TestDag) : List TestNode :=
  d.nodes.filterMap fun p => p.2.head?

/-- Src: `TestDag::new`. -/
def TestDag.new (client : Nat) : TestDag :=
  { nodes := [], frontier := [], version_vec := [], next_lamport := 0,
    client_id := client }

/-- Src: `TestDag::push` — appends a new local span: the counter is the
current version-vector entry (inserted as 0 when absent), the new node
takes the current frontier as deps and the current `next_lamport`, the
frontier is replaced by the single new start id, and the version vector
and lamport clock advance by `len`. -/
def TestDag.push (d : TestDag) (len : Nat) : TestDag :=
  let c := (vvGet d d.client_id).getD 0
  let id : ID := ⟨d.client_id, c⟩
  { nodes := aModify d.nodes d.client_id []
      (fun l => l ++ [⟨id, d.next_lamport, len, d.frontier⟩])
    frontier := [id]
    version_vec := aModify d.version_vec d.client_id 0 (fun x => x + len)
    next_lamport := d.next_lamport + len
    client_id := d.client_id }

/-- Modelled from the spec: `update_frontier` lives in the dag module
(dag.rs), which is not among the provided sources; per the spec, it
removes every dep that is currently a frontier tip and adds the given id
as a new tip. -/
def update_frontier (frontier : List ID) (newId : ID) (deps : List ID) :
    List ID :=
  (frontier.filter fun f => decide (f ∉ deps)) ++ [newId]

/-- State change of the third branch of `TestDag::_try_push_node`
(admission): insert the node into its client's list, update the
frontier, cover the node's span in the version vector, and raise
`next_lamport` to at least `node.lamport + node.len`. -/
def admitNode (d : TestDag) (node : TestNode) : TestDag :=
  { nodes := aModify d.nodes node.id.clientId [] (fun l => l ++ [node])
    frontier := update_frontier d.frontier node.id node.deps
    version_vec := aModify d.version_vec node.id.clientId 0
      (fun _ => node.id.counter + node.len)
    next_lamport := max d.next_lamport (node.lamport + node.len)
    client_id := d.client_id }

/-- Src: `TestDag::_try_push_node` — skip a node that is already
contained (result `false`), buffer a node with an unsatisfied dep
(result `true`), otherwise admit it (result `false`). -/
def tryPushNode (d : TestDag) (node : TestNode) (pending : List (Nat × Nat))
    (i : Nat) : TestDag × List (Nat × Nat) × Bool :=
  if d.contains node.id then (d, pending, false)
  else if node.deps.any (fun dep => !(d.contains dep)) then
    (d, pending ++ [(node.id.clientId, i)], true)
  else (admitNode d node, pending, false)

/-- Src: the inner `for (i, node) in nodes.iter().enumerate()` loops of
`TestDag::merge` — try each node in order starting at index `i`, and
stop at the first buffered one. -/
def mergeScan : TestDag → List (Nat × Nat) → List TestNode → Nat →
    TestDag × List (Nat × Nat)
  | d, pending, [], _ => (d, pending)
  | d, pending, node :: rest, i =>
    match tryPushNode d node pending i with
    | (d', p', true) => (d', p')
    | (d', p', false) => mergeScan d' p' rest (i + 1)

/-- Src: the first `for (_, nodes) in other.nodes.iter()` loop of
`TestDag::merge`. -/
def mergeOuter : TestDag → List (Nat × Nat) → List (Nat × List TestNode) →
    TestDag × List (Nat × Nat)
  | d, pending, [] => (d, pending)
  | d, pending, (_, vec) :: rest =>
    let r := mergeScan d pending vec 0
    mergeOuter r.1 r.2 rest

/-- Result of one iteration of the pending loop of `TestDag::merge`. -/
inductive LoopRes where
  | done : TestDag → LoopRes
  | cont : TestDag → List (Nat × Nat) → List (Nat × Nat) → LoopRes
deriving DecidableEq

/-- One iteration of the `while !pending.is_empty() || !current.is_empty()`
loop of `TestDag::merge`: when `current` is empty the queues are
swapped, then the last entry of `current` is popped and the client's
node vector is scanned from the stored index. -/
def mergeLoopStep (other : TestDag) (d : TestDag)
    (current pending : List (Nat × Nat)) : LoopRes :=
  if current.isEmpty && pending.isEmpty then .done d
  else
    let cp := if current.isEmpty then (pending, ([] : List (Nat × Nat)))
              else (current, pending)
    match cp.1.getLast? with
    | none => .done d
    | some e =>
      let vec := (alookup other.nodes e.1).getD []
      let r := mergeScan d cp.2 (vec.drop e.2) e.2
      .cont r.1 cp.1.dropLast r.2

/-- Fuelled iteration of the pending loop.  The Rust loop is unbounded;
the fuel passed by `TestDag.merge` is proven sufficient for every state
reachable through the public operations (for malformed inputs the Rust
loop diverges, see the C3 theorems). -/
def mergeLoop (other : TestDag) : Nat → TestDag → List (Nat × Nat) →
    List (Nat × Nat) → TestDag
  | 0, d, _, _ => d
  | fuel + 1, d, current, pending =>
    match mergeLoopStep other d current pending with
    | .done d' => d'
    | .cont d' c' p' => mergeLoop other fuel d' c' p'

/-- Fuel bound used by `TestDag.merge`. -/
def mergeFuel (other : TestDag) : Nat :=
  ((allNodes other).length + 1) * (2 * other.nodes.length + 3) + 1

/-- Src: `TestDag::merge` — first pass over every node of `other`, then
the pending loop. -/
def TestDag.merge (d : TestDag) (other : TestDag) : TestDag :=
  let r := mergeOuter d [] other.nodes
  mergeLoop other (mergeFuel other) r.1 r.2 []

/-- Initial multi-replica system, as built by the property tests:
`dag_num` fresh instances with client ids `0, 1, ...`. -/
def initSystem (k : Nat) : List TestDag :=
  (List.range k).map TestDag.new

/-- One interaction on a system of replicas: a local `push` with
`len ≥ 1`, or one replica merging another (src: `Interaction`/`apply`
in dag/test.rs). -/
inductive Step : List TestDag → List TestDag → Prop
  | push (s : List TestDag) (i len : Nat) (hi : i < s.length)
      (hlen : 1 ≤ len) :
      Step s (s.set i ((s.get ⟨i, hi⟩).push len))
  | merge (s : List TestDag) (i j : Nat) (hi : i < s.length)
      (hj : j < s.length) (hij : i ≠ j) :
      Step s (s.set i ((s.get ⟨i, hi⟩).merge (s.get ⟨j, hj⟩)))

/-- States reachable from a fresh system by pushes and merges. -/
inductive Reach : List TestDag → Prop
  | init (k : Nat) : Reach (initSystem k)
  | step {s s' : List TestDag} : Reach s → Step s s' → Reach s'

/-- Lamport value of a known id: the covering node's start lamport plus
the offset of the id inside the span (unknown ids get 0). -/
def lamportOf (d : TestDag) (id : ID) : Nat :=
  match d.get id with
  | some n => n.lamport + (id.counter - n.id.counter)
  | none => 0

/-- Covering nodes of the deps of a node. -/
def depNodes (d : TestDag) (n : TestNode) : List TestNode :=
  n.deps.filterMap fun dep => d.get dep

/-- Fuelled reachability between stored nodes along dep edges. -/
def reachB (d : TestDag) : Nat → TestNode → TestNode → Bool
  | 0, n, m => n == m
  | fuel + 1, n, m => n == m || (depNodes d n).any fun p => reachB d fuel p m

/-- Every id the dag knows, client by client up to the version vector. -/
def allIds (d : TestDag) : List ID :=
  ((d.version_vec.map fun p =>
    (List.range p.2).map fun k => (⟨p.1, k⟩ : ID))).flatten

/-- Modelled from the spec: the causal-ancestor test underlying
`get_common_ancestor`, which is a provided method of the `Dag` trait in
dag.rs and not among the provided sources.  Per the spec, `y` is
causally prior to or equal to `x` when `y` lies in `x`'s own span no
later than `x`, or inside the full span of a node reached from `x`'s
node by following deps (the spec lets span containment from the visited
superset count as reaching a point). -/
def isAncestorOf (d : TestDag) (x y : ID) : Bool :=
  match d.get x, d.get y with
  | some nx, some ny =>
    (nx == ny && decide (y.counter ≤ x.counter))
      || (!(nx == ny)
          && (depNodes d nx).any fun p => reachB d d.next_lamport p ny)
  | _, _ => false

/-- Preference order on candidate common ancestors: higher lamport
first, then lower replica id, then higher counter. -/
def betterId (d : TestDag) (a b : ID) : Bool :=
  decide (lamportOf d b < lamportOf d a)
    || (decide (lamportOf d a = lamportOf d b)
      && (decide (a.clientId < b.clientId)
        || (decide (a.clientId = b.clientId) && decide (b.counter < a.counter))))

/-- Modelled from the spec: `get_common_ancestor` is a provided method
of the `Dag` trait (dag.rs), not among the provided sources.  The spec
specifies its result as the greatest common causal ancestor of the two
positions — the spec's own oracle is brute-force ancestor-set
intersection over the full dependency graph — picked deterministically
by highest lamport and then lowest replica id, and `None` when the two
positions share no ancestor. -/
def TestDag.get_common_ancestor (d : TestDag) (a b : ID) : Option ID :=
  match (allIds d).filter
      (fun y => isAncestorOf d a y && isAncestorOf d b y) with
  | [] => none
  | h :: t =>
    some (t.foldl (fun best y => if betterId d y best then y else best) h)

/-! ### Association-list lemmas -/

theorem alookup_aModify_self {α : Type} (l : List (Nat × α)) (k : Nat)
    (dflt : α) (f : α → α) :
    alookup (aModify l k dflt f) k = some (f ((alookup l k).getD dflt)) := by
  induction l with
  | nil => simp [aModify, alookup]
  | cons p rest ih =>
    by_cases h : p.1 = k
    · simp [aModify, alookup, h]
    · simp [aModify, alookup, h, ih]

theorem alookup_aModify_ne {α : Type} (l : List (Nat × α)) (k k' : Nat)
    (dflt : α) (f : α → α) (h : k' ≠ k) :
    alookup (aModify l k dflt f) k' = alookup l k' := by
  have hk : k ≠ k' := fun he => h he.symm
  induction l with
  | nil => simp [aModify, alookup, hk]
  | cons p rest ih =>
    by_cases hp : p.1 = k
    · subst hp
      simp [aModify, alookup, hk]
    · by_cases hp' : p.1 = k' <;> simp [aModify, alookup, hp, hp', hk, h, ih]

theorem alookup_mem {α : Type} {l : List (Nat × α)} {k : Nat} {v : α}
    (h : alookup l k = some v) : (k, v) ∈ l := by
  induction l with
  | nil => simp [alookup] at h
  | cons p rest ih =>
    by_cases hp : p.1 = k
    · subst hp
      simp [alookup] at h
      simp [← h]
    · simp [alookup, hp] at h
      exact List.mem_cons_of_mem _ (ih h)

theorem mem_alookup_of_nodup {α : Type} {l : List (Nat × α)} {k : Nat}
    {v : α} (hd : (l.map Prod.fst).Nodup) (h : (k, v) ∈ l) :
    alookup l k = some v := by
  induction l with
  | nil => simp at h
  | cons p rest ih =>
    rw [List.map_cons, List.nodup_cons] at hd
    rcases List.mem_cons.1 h with h1 | h1
    · subst h1
      simp [alookup]
    · have hk : p.1 ≠ k := by
        intro he
        exact hd.1 (by rw [he]; exact List.mem_map.2 ⟨(k, v), h1, rfl⟩)
      simp [alookup, hk]
      exact ih hd.2 h1

theorem aModify_map_fst {α : Type} (l : List (Nat × α)) (k : Nat)
    (dflt : α) (f : α → α) :
    (aModify l k dflt f).map Prod.fst =
      if (alookup l k).isSome then l.map Prod.fst
      else l.map Prod.fst ++ [k] := by
  induction l with
  | nil => simp [aModify, alookup]
  | cons p rest ih =>
    by_cases hp : p.1 = k
    · simp [aModify, alookup, hp]
    · simp only [aModify, alookup, hp, if_neg, ite_false, List.map_cons, ih]
      by_cases hs : (alookup rest k).isSome <;> simp [hs]

theorem aModify_keys_nodup {α : Type} {l : List (Nat × α)} (k : Nat)
    (dflt : α) (f : α → α) (hd : (l.map Prod.fst).Nodup) :
    ((aModify l k dflt f).map Prod.fst).Nodup := by
  rw [aModify_map_fst]
  by_cases hs : (alookup l k).isSome
  · simpa [hs]
  · have hk : k ∉ l.map Prod.fst := by
      intro hmem
      rcases List.mem_map.1 hmem with ⟨p, hp, he⟩
      obtain ⟨k', v⟩ := p
      subst he
      have := mem_alookup_of_nodup hd hp
      simp [this] at hs
    simp [hs]
    exact List.nodup_append.2 ⟨hd, List.nodup_singleton k, by simpa using hk⟩

theorem mem_aModify {α : Type} {l : List (Nat × α)} {k : Nat} {dflt : α}
    {f : α → α} {p : Nat × α} (h : p ∈ aModify l k dflt f) :
    p ∈ l ∨ (p.1 = k ∧ p.2 = f ((alookup l k).getD dflt)) := by
  induction l with
  | nil =>
    simp [aModify] at h
    simp [h, alookup]
  | cons q rest ih =>
    by_cases hq : q.1 = k
    · subst hq
      simp [aModify] at h
      rcases h with h | h
      · right
        simp [h, alookup]
      · exact Or.inl (List.mem_cons_of_mem _ h)
    · simp [aModify, hq] at h
      rcases h with h | h
      · exact Or.inl (by simp [h])
      · rcases ih h with h1 | h1
        · exact Or.inl (List.mem_cons_of_mem _ h1)
        · simp [alookup, hq]
          exact Or.inr h1

/-! ### Pointwise characterization of push and admitNode -/

theorem nodesOf_push_self (d : TestDag) (len : Nat) :
    nodesOf (d.push len) d.client_id =
      nodesOf d d.client_id ++
        [⟨⟨d.client_id, (vvGet d d.client_id).getD 0⟩, d.next_lamport, len,
          d.frontier⟩] := by
  simp [TestDag.push, nodesOf, alookup_aModify_self]

theorem nodesOf_push_ne (d : TestDag) (len : Nat) (c : Nat)
    (h : c ≠ d.client_id) : nodesOf (d.push len) c = nodesOf d c := by
  simp [TestDag.push, nodesOf, alookup_aModify_ne _ _ _ _ _ h]

theorem vvGet_push_self (d : TestDag) (len : Nat) :
    vvGet (d.push len) d.client_id =
      some ((vvGet d d.client_id).getD 0 + len) := by
  simp [TestDag.push, vvGet, alookup_aModify_self]

theorem vvGet_push_ne (d : TestDag) (len : Nat) (c : Nat)
    (h : c ≠ d.client_id) : vvGet (d.push len) c = vvGet d c := by
  simp [TestDag.push, vvGet, alookup_aModify_ne _ _ _ _ _ h]

theorem nodesOf_admit_self (d : TestDag) (n : TestNode) :
    nodesOf (admitNode d n) n.id.clientId =
      nodesOf d n.id.clientId ++ [n] := by
  simp [admitNode, nodesOf, alookup_aModify_self]

theorem nodesOf_admit_ne (d : TestDag) (n : TestNode) (c : Nat)
    (h : c ≠ n.id.clientId) : nodesOf (admitNode d n) c = nodesOf d c := by
  simp [admitNode, nodesOf, alookup_aModify_ne _ _ _ _ _ h]

theorem vvGet_admit_self (d : TestDag) (n : TestNode) :
    vvGet (admitNode d n) n.id.clientId = some (n.id.counter + n.len) := by
  simp [admitNode, vvGet, alookup_aModify_self]

theorem vvGet_admit_ne (d : TestDag) (n : TestNode) (c : Nat)
    (h : c ≠ n.id.clientId) : vvGet (admitNode d n) c = vvGet d c := by
  simp [admitNode, vvGet, alookup_aModify_ne _ _ _ _ _ h]

/-! ### Gapless chains of spans -/

/-- Total length of a list of spans. -/
def sumLens (l : List TestNode) : Nat := l.foldr (fun n acc => n.len + acc) 0

theorem sumLens_nil : sumLens [] = 0 := rfl

theorem sumLens_cons (n : TestNode) (l : List TestNode) :
    sumLens (n :: l) = n.len + sumLens l := rfl

theorem sumLens_append (l l' : List TestNode) :
    sumLens (l ++ l') = sumLens l + sumLens l' := by
  induction l with
  | nil => simp [sumLens_nil]
  | cons n rest ih => simp [sumLens_cons, ih, Nat.add_assoc]

/-- The list of spans of one client is gapless starting at counter `k`:
each node starts where the previous one ended and has positive length. -/
def chainFrom (c : Nat) : Nat → List TestNode → Prop
  | _, [] => True
  | k, n :: rest => n.id = ⟨c, k⟩ ∧ 1 ≤ n.len ∧ chainFrom c (k + n.len) rest

theorem chainFrom_append {c k : Nat} {l l' : List TestNode} :
    chainFrom c k (l ++ l') ↔
      chainFrom c k l ∧ chainFrom c (k + sumLens l) l' := by
  induction l generalizing k with
  | nil => simp [chainFrom, sumLens_nil]
  | cons n rest ih =>
    simp [chainFrom, sumLens_cons, ih, Nat.add_assoc, and_assoc]

theorem chainFrom_mem {c k : Nat} {l : List TestNode} (h : chainFrom c k l)
    {n : TestNode} (hn : n ∈ l) :
    n.id.clientId = c ∧ 1 ≤ n.len ∧ k ≤ n.id.counter ∧
      n.id.counter + n.len ≤ k + sumLens l := by
  induction l generalizing k with
  | nil => simp at hn
  | cons m rest ih =>
    obtain ⟨hid, hlen, hrest⟩ := h
    rcases List.mem_cons.1 hn with h1 | h1
    · subst h1
      simp [hid, sumLens_cons]
      omega
    · have := ih hrest h1
      rw [sumLens_cons]
      refine ⟨this.1, this.2.1, ?_, ?_⟩ <;> omega

/-- The Boolean span-containment predicate used by `TestDag.get`. -/
def spanHit (x : Nat) (n : TestNode) : Bool :=
  n.id.counter ≤ x && x < n.id.counter + n.len

theorem get_eq_find (d : TestDag) (id : ID) :
    d.get id = (nodesOf d id.clientId).find? (spanHit id.counter) := by
  unfold TestDag.get nodesOf spanHit
  cases alookup d.nodes id.clientId <;> simp

theorem chain_find_lt {c k x : Nat} {l : List TestNode}
    (h : chainFrom c k l) (hx : x < k) : l.find? (spanHit x) = none := by
  induction l generalizing k with
  | nil => simp
  | cons n rest ih =>
    obtain ⟨hid, hlen, hrest⟩ := h
    have hhit : spanHit x n = false := by
      simp [spanHit, hid]
      omega
    rw [List.find?_cons_of_neg _ (by simp [hhit])]
    exact ih hrest (by omega)

theorem chain_find_ge {c k x : Nat} {l : List TestNode}
    (h : chainFrom c k l) (hx : k + sumLens l ≤ x) :
    l.find? (spanHit x) = none := by
  induction l generalizing k with
  | nil => simp
  | cons n rest ih =>
    obtain ⟨hid, hlen, hrest⟩ := h
    rw [sumLens_cons] at hx
    have hhit : spanHit x n = false := by
      simp [spanHit, hid]
      intro h1
      omega
    rw [List.find?_cons_of_neg _ (by simp [hhit])]
    exact ih hrest (by omega)

theorem chain_find_covers {c k x : Nat} {l : List TestNode}
    (h : chainFrom c k l) (hx1 : k ≤ x) (hx2 : x < k + sumLens l) :
    ∃ n, l.find? (spanHit x) = some n ∧ n ∈ l ∧ n.id.counter ≤ x ∧
      x < n.id.counter + n.len := by
  induction l generalizing k with
  | nil => rw [sumLens_nil] at hx2; omega
  | cons n rest ih =>
    obtain ⟨hid, hlen, hrest⟩ := h
    by_cases hin : x < k + n.len
    · refine ⟨n, ?_, List.mem_cons_self _ _, ?_, ?_⟩
      · rw [List.find?_cons_of_pos _ (by simp [spanHit, hid]; omega)]
      · rw [hid]; exact hx1
      · rw [hid]; exact hin
    · have hhit : spanHit x n = false := by
        simp [spanHit, hid]
        omega
      rw [List.find?_cons_of_neg _ (by simp [hhit])]
      rw [sumLens_cons] at hx2
      obtain ⟨m, h1, h2, h3, h4⟩ := ih hrest (by omega) (by omega)
      exact ⟨m, h1, List.mem_cons_of_mem _ h2, h3, h4⟩

theorem chain_mem_unique {c k x : Nat} {l : List TestNode}
    (h : chainFrom c k l) {n m : TestNode} (hn : n ∈ l) (hm : m ∈ l)
    (hxn : n.id.counter ≤ x ∧ x < n.id.counter + n.len)
    (hxm : m.id.counter ≤ x ∧ x < m.id.counter + m.len) : n = m := by
  induction l generalizing k with
  | nil => simp at hn
  | cons p rest ih =>
    obtain ⟨hid, hlen, hrest⟩ := h
    rcases List.mem_cons.1 hn with h1 | h1 <;>
      rcases List.mem_cons.1 hm with h2 | h2
    · rw [h1, h2]
    · exfalso
      have := chainFrom_mem hrest h2
      subst h1
      rw [hid] at hxn
      simp at hxn
      omega
    · exfalso
      have := chainFrom_mem hrest h1
      subst h2
      rw [hid] at hxm
      simp at hxm
      omega
    · exact ih hrest h1 h2

theorem chain_find_of_mem {c k x : Nat} {l : List TestNode}
    (h : chainFrom c k l) {n : TestNode} (hn : n ∈ l)
    (hx1 : n.id.counter ≤ x) (hx2 : x < n.id.counter + n.len) :
    l.find? (spanHit x) = some n := by
  obtain ⟨hbc, hbl, hbk, hbs⟩ := chainFrom_mem h hn
  obtain ⟨m, h1, h2, h3, h4⟩ :=
    chain_find_covers h (le_trans hbk hx1) (by omega)
  rw [h1, chain_mem_unique h h2 hn ⟨h3, h4⟩ ⟨hx1, hx2⟩]

/-! ### Prefix order on lists -/

/-- The usual initial-segment order, written out explicitly. -/
def ListLe {α : Type} (a b : List α) : Prop := ∃ t, a ++ t = b

theorem ListLe_refl {α : Type} (a : List α) : ListLe a a := ⟨[], by simp⟩

theorem ListLe_trans {α : Type} {a b c : List α} (h1 : ListLe a b)
    (h2 : ListLe b c) : ListLe a c := by
  obtain ⟨t, ht⟩ := h1
  obtain ⟨u, hu⟩ := h2
  exact ⟨t ++ u, by rw [← hu, ← ht, List.append_assoc]⟩

theorem ListLe_append {α : Type} (a t : List α) : ListLe a (a ++ t) := ⟨t, rfl⟩

theorem ListLe_nil {α : Type} (a : List α) : ListLe [] a := ⟨a, rfl⟩

theorem ListLe_length {α : Type} {a b : List α} (h : ListLe a b) :
    a.length ≤ b.length := by
  obtain ⟨t, ht⟩ := h
  rw [← ht]
  simp

theorem ListLe_eq_take {α : Type} {a b : List α} (h : ListLe a b) :
    a = b.take a.length := by
  obtain ⟨t, ht⟩ := h
  rw [← ht, List.take_left]

theorem ListLe_of_take {α : Type} {a b : List α} (h : a = b.take a.length) :
    ListLe a b := by
  refine ⟨b.drop a.length, ?_⟩
  nth_rewrite 1 [h]
  exact List.take_append_drop _ _

theorem ListLe_total {α : Type} {a b o : List α} (ha : ListLe a o)
    (hb : ListLe b o) : ListLe a b ∨ ListLe b a := by
  rcases le_total a.length b.length with h | h
  · left
    apply ListLe_of_take
    rw [ListLe_eq_take hb, List.take_take]
    conv_lhs => rw [ListLe_eq_take ha]
    congr 1
    have := ListLe_eq_take ha
    omega
  · right
    apply ListLe_of_take
    rw [ListLe_eq_take ha, List.take_take]
    conv_lhs => rw [ListLe_eq_take hb]
    congr 1
    have := ListLe_eq_take hb
    omega

theorem ListLe_antisym {α : Type} {a b : List α} (h1 : ListLe a b)
    (h2 : ListLe b a) : a = b := by
  obtain ⟨t, ht⟩ := h1
  have hl : b.length ≤ a.length := ListLe_length h2
  have ht' := congrArg List.length ht
  simp at ht'
  have hnil : t = [] := List.eq_nil_of_length_eq_zero (by omega)
  rw [hnil] at ht
  simpa using ht

/-! ### Membership in allNodes -/

theorem mem_allNodes_of_nodesOf {d : TestDag} {c : Nat} {n : TestNode}
    (h : n ∈ nodesOf d c) : n ∈ allNodes d := by
  unfold nodesOf at h
  cases he : alookup d.nodes c with
  | none => rw [he] at h; simp at h
  | some l =>
    rw [he] at h
    simp at h
    exact List.mem_flatten.2 ⟨l, List.mem_map.2 ⟨(c, l), alookup_mem he, rfl⟩, h⟩

theorem nodesOf_of_mem_allNodes {d : TestDag} {n : TestNode}
    (hd : (d.nodes.map Prod.fst).Nodup)
    (hk : ∀ p ∈ d.nodes, ∀ m ∈ p.2, m.id.clientId = p.1)
    (h : n ∈ allNodes d) : n ∈ nodesOf d n.id.clientId := by
  rcases List.mem_flatten.1 h with ⟨l, hl, hnl⟩
  rcases List.mem_map.1 hl with ⟨p, hp, he⟩
  subst he
  have hc : n.id.clientId = p.1 := hk p hp n hnl
  have := mem_alookup_of_nodup hd (show (p.1, p.2) ∈ d.nodes by simpa using hp)
  rw [nodesOf, hc, this]
  simpa using hnl

/-! ### Reachability along deps -/

/-- Reachability between stored nodes along dep edges, resolved through
`TestDag.get`. -/
inductive NReach (d : TestDag) : TestNode → TestNode → Prop
  | refl (n : TestNode) : NReach d n n
  | tail {a b c' : TestNode} {dep : ID} : NReach d a b → dep ∈ b.deps →
      d.get dep = some c' → NReach d a c'

theorem NReach.trans {d : TestDag} {a b c' : TestNode} (h1 : NReach d a b)
    (h2 : NReach d b c') : NReach d a c' := by
  induction h2 with
  | refl => exact h1
  | tail _ hdep hget ih => exact NReach.tail ih hdep hget

/-- A node reachable from one of the given ids (each resolved to its
covering node first). -/
def ReachFromIds (d : TestDag) (ids : List ID) (m : TestNode) : Prop :=
  ∃ dep ∈ ids, ∃ n₀, d.get dep = some n₀ ∧ NReach d n₀ m

/-! ### The per-dag well-formedness invariant -/

/-- Everything that is always true of one `TestDag` reachable through
the public operations.  `fr_char` is the spec's frontier
characterization, `chain`/`vv_ok` the gapless-partition invariant,
`closure` causal closedness, `dep_dom` the lamport dominance of a node
over its deps, and `pred_reach`/`fr_dom` record that deps of later
nodes reach their per-client predecessors and that the frontier
dominates every stored node. -/
structure DagWF (d : TestDag) : Prop where
  keys_match : ∀ p ∈ d.nodes, ∀ n ∈ p.2, n.id.clientId = p.1
  keys_ne : ∀ p ∈ d.nodes, p.2 ≠ []
  keys_nodup : (d.nodes.map Prod.fst).Nodup
  chain : ∀ c, chainFrom c 0 (nodesOf d c)
  vv_ok : ∀ c, vvGet d c =
    if nodesOf d c = [] then none else some (sumLens (nodesOf d c))
  closure : ∀ n ∈ allNodes d, ∀ dep ∈ n.deps, d.contains dep = true
  dep_start : ∀ n ∈ allNodes d, ∀ dep ∈ n.deps,
    ∃ m ∈ nodesOf d dep.clientId, m.id = dep
  dep_dom : ∀ n ∈ allNodes d, ∀ dep ∈ n.deps, ∀ m, d.get dep = some m →
    m.lamport + m.len ≤ n.lamport
  lam_ub : ∀ n ∈ allNodes d, n.lamport + n.len ≤ d.next_lamport
  lam_sup : d.next_lamport = 0 ∨
    ∃ n ∈ allNodes d, n.lamport + n.len = d.next_lamport
  fr_nodup : d.frontier.Nodup
  fr_char : ∀ id, id ∈ d.frontier ↔
    ((∃ n ∈ allNodes d, n.id = id) ∧ ∀ m ∈ allNodes d, id ∉ m.deps)
  pred_reach : ∀ c i n m, (nodesOf d c)[i]? = some n →
    (nodesOf d c)[i + 1]? = some m → ReachFromIds d m.deps n
  fr_dom : ∀ n ∈ allNodes d, ReachFromIds d d.frontier n

/-! ### Derived facts about well-formed dags -/

theorem contains_iff_sum {d : TestDag} (wf : DagWF d) (id : ID) :
    d.contains id = true ↔ id.counter < sumLens (nodesOf d id.clientId) := by
  unfold TestDag.contains
  rw [wf.vv_ok id.clientId]
  by_cases he : nodesOf d id.clientId = []
  · simp [he, sumLens_nil]
  · simp [he]

theorem get_of_contains {d : TestDag} (wf : DagWF d) {id : ID}
    (h : d.contains id = true) :
    ∃ n, d.get id = some n ∧ n ∈ nodesOf d id.clientId ∧
      n.id.counter ≤ id.counter ∧ id.counter < n.id.counter + n.len := by
  rw [get_eq_find]
  have hs := (contains_iff_sum wf id).1 h
  obtain ⟨n, h1, h2, h3, h4⟩ :=
    chain_find_covers (x := id.counter) (wf.chain id.clientId)
      (Nat.zero_le _) (by omega)
  exact ⟨n, h1, h2, h3, h4⟩

theorem contains_of_get {d : TestDag} (wf : DagWF d) {id : ID}
    {n : TestNode} (h : d.get id = some n) : d.contains id = true := by
  rw [get_eq_find] at h
  have hmem := List.mem_of_find?_eq_some h
  have hp := List.find?_some h
  simp [spanHit] at hp
  have hb := chainFrom_mem (wf.chain id.clientId) hmem
  rw [contains_iff_sum wf]
  omega

theorem get_none_iff {d : TestDag} (wf : DagWF d) (id : ID) :
    d.get id = none ↔ d.contains id = false := by
  constructor
  · intro h
    cases hc : d.contains id with
    | false => rfl
    | true =>
      obtain ⟨n, h1, _⟩ := get_of_contains wf hc
      rw [h] at h1
      cases h1
  · intro h
    cases hg : d.get id with
    | none => rfl
    | some n =>
      rw [contains_of_get wf hg] at h
      cases h

theorem get_mem_allNodes {d : TestDag} {id : ID} {n : TestNode}
    (h : d.get id = some n) : n ∈ allNodes d := by
  rw [get_eq_find] at h
  exact mem_allNodes_of_nodesOf (List.mem_of_find?_eq_some h)

theorem get_covers {d : TestDag} {id : ID} {n : TestNode}
    (h : d.get id = some n) :
    n.id.counter ≤ id.counter ∧ id.counter < n.id.counter + n.len := by
  rw [get_eq_find] at h
  have hp := List.find?_some h
  simp [spanHit] at hp
  exact hp

theorem vv_getD_sum {d : TestDag} (wf : DagWF d) (c : Nat) :
    (vvGet d c).getD 0 = sumLens (nodesOf d c) := by
  rw [wf.vv_ok c]
  by_cases he : nodesOf d c = [] <;> simp [he, sumLens_nil]

theorem frontier_contained {d : TestDag} (wf : DagWF d) {f : ID}
    (h : f ∈ d.frontier) : d.contains f = true := by
  obtain ⟨⟨n, hn, hid⟩, -⟩ := (wf.fr_char f).1 h
  have hmem := nodesOf_of_mem_allNodes wf.keys_nodup wf.keys_match hn
  have hb := chainFrom_mem (wf.chain n.id.clientId) hmem
  rw [contains_iff_sum wf, ← hid]
  omega

theorem dep_contained_counter {d : TestDag} (wf : DagWF d) {n : TestNode}
    (hn : n ∈ allNodes d) {dep : ID} (hdep : dep ∈ n.deps) :
    dep.counter < sumLens (nodesOf d dep.clientId) :=
  (contains_iff_sum wf dep).1 (wf.closure n hn dep hdep)

/-! ### The effect of push on lookups and reachability -/

theorem mem_flatten_aModify (l : List (Nat × List TestNode)) (c : Nat)
    (n : TestNode) (x : TestNode) :
    (x ∈ ((aModify l c [] (fun v => v ++ [n])).map Prod.snd).flatten ↔
      x ∈ (l.map Prod.snd).flatten ∨ x = n) := by
  induction l with
  | nil => simp [aModify]
  | cons p rest ih =>
    by_cases hp : p.1 = c
    · simp [aModify, hp, or_assoc, or_comm, or_left_comm]
    · simp only [aModify, hp, ite_false, List.map_cons, List.flatten_cons,
        List.mem_append, ih, List.mem_cons]
      tauto

theorem mem_allNodes_push (d : TestDag) (len : Nat) (x : TestNode) :
    x ∈ allNodes (d.push len) ↔ x ∈ allNodes d ∨
      x = ⟨⟨d.client_id, (vvGet d d.client_id).getD 0⟩, d.next_lamport, len,
        d.frontier⟩ := by
  unfold allNodes TestDag.push
  exact mem_flatten_aModify _ _ _ _

theorem mem_allNodes_admitN (d : TestDag) (n : TestNode) (x : TestNode) :
    x ∈ allNodes (admitNode d n) ↔ x ∈ allNodes d ∨ x = n := by
  unfold allNodes admitNode
  exact mem_flatten_aModify _ _ _ _

theorem contains_push_mono {d : TestDag} {id : ID}
    (h : d.contains id = true) (len : Nat) :
    (d.push len).contains id = true := by
  by_cases hc : id.clientId = d.client_id
  · unfold TestDag.contains at h ⊢
    rw [hc] at h ⊢
    rw [vvGet_push_self]
    cases hv : vvGet d d.client_id with
    | none => rw [hv] at h; simp at h
    | some x =>
      rw [hv] at h
      simp at h
      simp [hv]
      omega
  · unfold TestDag.contains at h ⊢
    rw [vvGet_push_ne _ _ _ hc]
    exact h

theorem get_push_of_contains {d : TestDag} (wf : DagWF d) {id : ID}
    (h : d.contains id = true) (len : Nat) :
    (d.push len).get id = d.get id := by
  by_cases hc : id.clientId = d.client_id
  · rw [get_eq_find, get_eq_find, hc, nodesOf_push_self, List.find?_append]
    obtain ⟨n, h1, -⟩ := get_of_contains wf h
    rw [get_eq_find, hc] at h1
    rw [h1]
    rfl
  · rw [get_eq_find, get_eq_find, nodesOf_push_ne _ _ _ hc]

theorem nreach_push {d : TestDag} (wf : DagWF d) {a b : TestNode}
    (h : NReach d a b) (len : Nat) : NReach (d.push len) a b := by
  induction h with
  | refl => exact NReach.refl _
  | tail _ hdep hget ih =>
    exact NReach.tail ih hdep
      (by rw [get_push_of_contains wf (contains_of_get wf hget)]; exact hget)

theorem reach_ids_push {d : TestDag} (wf : DagWF d) {ids : List ID}
    {m : TestNode} (h : ReachFromIds d ids m) (len : Nat) :
    ReachFromIds (d.push len) ids m := by
  obtain ⟨dep, hdep, n₀, hget, hr⟩ := h
  exact ⟨dep, hdep, n₀,
    by rw [get_push_of_contains wf (contains_of_get wf hget)]; exact hget,
    nreach_push wf hr len⟩

theorem get_push_newId {d : TestDag} (wf : DagWF d) {len : Nat}
    (hlen : 1 ≤ len) :
    (d.push len).get ⟨d.client_id, (vvGet d d.client_id).getD 0⟩ =
      some ⟨⟨d.client_id, (vvGet d d.client_id).getD 0⟩, d.next_lamport, len,
        d.frontier⟩ := by
  rw [get_eq_find]
  simp only [nodesOf_push_self]
  rw [List.find?_append]
  have h1 : (nodesOf d d.client_id).find?
      (spanHit ((vvGet d d.client_id).getD 0)) = none :=
    chain_find_ge (wf.chain d.client_id) (by rw [vv_getD_sum wf]; omega)
  rw [h1]
  have : spanHit ((vvGet d d.client_id).getD 0)
      ⟨⟨d.client_id, (vvGet d d.client_id).getD 0⟩, d.next_lamport, len,
        d.frontier⟩ = true := by
    simp [spanHit]
    omega
  simp [this]

/-- The node that `push` appends. -/
def pushNode (d : TestDag) (len : Nat) : TestNode :=
  ⟨⟨d.client_id, (vvGet d d.client_id).getD 0⟩, d.next_lamport, len,
    d.frontier⟩

theorem nodesOf_push_self_pn (d : TestDag) (len : Nat) :
    nodesOf (d.push len) d.client_id =
      nodesOf d d.client_id ++ [pushNode d len] :=
  nodesOf_push_self d len

theorem mem_allNodes_push_pn (d : TestDag) (len : Nat) (x : TestNode) :
    x ∈ allNodes (d.push len) ↔ x ∈ allNodes d ∨ x = pushNode d len :=
  mem_allNodes_push d len x

theorem frontier_push (d : TestDag) (len : Nat) :
    (d.push len).frontier = [(pushNode d len).id] := rfl

theorem nodesOf_push_mem {d : TestDag} {c : Nat} {x : TestNode} (len : Nat)
    (h : x ∈ nodesOf d c) : x ∈ nodesOf (d.push len) c := by
  by_cases hc : c = d.client_id
  · subst hc
    rw [nodesOf_push_self_pn]
    exact List.mem_append_left _ h
  · rw [nodesOf_push_ne _ _ _ hc]
    exact h

theorem new_wf (client : Nat) : DagWF (TestDag.new client) := by
  refine ⟨?_, ?_, ?_, ?_, ?_, ?_, ?_, ?_, ?_, ?_, ?_, ?_, ?_, ?_⟩ <;>
    simp [TestDag.new, nodesOf, vvGet, allNodes, alookup, chainFrom]

theorem push_wf {d : TestDag} (wf : DagWF d) {len : Nat} (hlen : 1 ≤ len) :
    DagWF (d.push len) := by
  have hsum : (vvGet d d.client_id).getD 0 = sumLens (nodesOf d d.client_id) :=
    vv_getD_sum wf d.client_id
  refine ⟨?_, ?_, ?_, ?_, ?_, ?_, ?_, ?_, ?_, ?_, ?_, ?_, ?_, ?_⟩
  · -- keys_match
    intro p hp n hn
    rcases mem_aModify hp with h1 | ⟨h1, h2⟩
    · exact wf.keys_match p h1 n hn
    · rw [h2] at hn
      rcases List.mem_append.1 hn with h3 | h3
      · have := chainFrom_mem (wf.chain d.client_id)
          (show n ∈ nodesOf d d.client_id from h3)
        rw [h1]
        exact this.1
      · simp at h3
        rw [h3, h1]
  · -- keys_ne
    intro p hp
    rcases mem_aModify hp with h1 | ⟨-, h2⟩
    · exact wf.keys_ne p h1
    · rw [h2]
      simp
  · -- keys_nodup
    exact aModify_keys_nodup _ _ _ wf.keys_nodup
  · -- chain
    intro c
    by_cases hc : c = d.client_id
    · subst hc
      rw [nodesOf_push_self_pn]
      refine chainFrom_append.2 ⟨wf.chain _, ?_, hlen, trivial⟩
      show (⟨d.client_id, (vvGet d d.client_id).getD 0⟩ : ID) = _
      rw [hsum]
      simp
    · rw [nodesOf_push_ne _ _ _ hc]
      exact wf.chain c
  · -- vv_ok
    intro c
    by_cases hc : c = d.client_id
    · subst hc
      rw [vvGet_push_self, nodesOf_push_self_pn]
      have hne : nodesOf d d.client_id ++ [pushNode d len] ≠ [] := by simp
      rw [if_neg hne, sumLens_append, hsum]
      simp [sumLens_cons, sumLens_nil, pushNode]
    · rw [vvGet_push_ne _ _ _ hc, nodesOf_push_ne _ _ _ hc]
      exact wf.vv_ok c
  · -- closure
    intro n hn dep hdep
    rcases (mem_allNodes_push_pn d len n).1 hn with h1 | h1
    · exact contains_push_mono (wf.closure n h1 dep hdep) len
    · rw [h1] at hdep
      exact contains_push_mono (frontier_contained wf hdep) len
  · -- dep_start
    intro n hn dep hdep
    rcases (mem_allNodes_push_pn d len n).1 hn with h1 | h1
    · obtain ⟨m, hm, hid⟩ := wf.dep_start n h1 dep hdep
      exact ⟨m, nodesOf_push_mem len hm, hid⟩
    · rw [h1] at hdep
      obtain ⟨⟨m, hm, hid⟩, -⟩ := (wf.fr_char dep).1 hdep
      have hmm := nodesOf_of_mem_allNodes wf.keys_nodup wf.keys_match hm
      rw [← hid]
      exact ⟨m, nodesOf_push_mem len hmm, rfl⟩
  · -- dep_dom
    intro n hn dep hdep m hm
    rcases (mem_allNodes_push_pn d len n).1 hn with h1 | h1
    · rw [get_push_of_contains wf (wf.closure n h1 dep hdep)] at hm
      exact wf.dep_dom n h1 dep hdep m hm
    · rw [h1] at hdep ⊢
      rw [get_push_of_contains wf (frontier_contained wf hdep)] at hm
      exact wf.lam_ub m (get_mem_allNodes hm)
  · -- lam_ub
    intro n hn
    rcases (mem_allNodes_push_pn d len n).1 hn with h1 | h1
    · have := wf.lam_ub n h1
      show n.lamport + n.len ≤ d.next_lamport + len
      omega
    · rw [h1]
      show d.next_lamport + len ≤ d.next_lamport + len
      exact le_refl _
  · -- lam_sup
    exact Or.inr ⟨pushNode d len,
      (mem_allNodes_push_pn d len _).2 (Or.inr rfl), rfl⟩
  · -- fr_nodup
    simp [TestDag.push]
  · -- fr_char
    intro id
    constructor
    · intro h
      rw [frontier_push] at h
      simp at h
      subst h
      refine ⟨⟨pushNode d len,
        (mem_allNodes_push_pn d len _).2 (Or.inr rfl), rfl⟩, ?_⟩
      intro m hm hin
      rcases (mem_allNodes_push_pn d len m).1 hm with h1 | h1
      · have := dep_contained_counter wf h1 hin
        simp [pushNode] at this
        omega
      · rw [h1] at hin
        have := frontier_contained wf hin
        rw [contains_iff_sum wf] at this
        simp [pushNode] at this
        omega
    · rintro ⟨⟨n, hn, hid⟩, hall⟩
      rcases (mem_allNodes_push_pn d len n).1 hn with h1 | h1
      · exfalso
        have hold : id ∈ d.frontier := (wf.fr_char id).2
          ⟨⟨n, h1, hid⟩, fun m hm =>
            hall m ((mem_allNodes_push_pn d len m).2 (Or.inl hm))⟩
        exact hall (pushNode d len)
          ((mem_allNodes_push_pn d len _).2 (Or.inr rfl)) hold
      · rw [frontier_push, ← hid, h1]
        simp
  · -- pred_reach
    intro c i n m h1 h2
    by_cases hc : c = d.client_id
    · subst hc
      rw [nodesOf_push_self_pn] at h1 h2
      rcases Nat.lt_trichotomy (i + 1) (nodesOf d d.client_id).length with
        hlt | heq | hgt
      · rw [List.getElem?_append_left (by omega)] at h1
        rw [List.getElem?_append_left hlt] at h2
        exact reach_ids_push wf (wf.pred_reach _ i n m h1 h2) len
      · rw [List.getElem?_append_left (by omega)] at h1
        have h2' : m = pushNode d len := by
          rw [heq] at h2
          rw [List.getElem?_concat_length] at h2
          exact (Option.some_injective _ h2).symm
        have hnm : n ∈ nodesOf d d.client_id := by
          rcases List.getElem?_eq_some.1 h1 with ⟨hh, he⟩
          rw [← he]
          exact List.getElem_mem hh
        subst h2'
        exact reach_ids_push wf
          (wf.fr_dom n (mem_allNodes_of_nodesOf hnm)) len
      · exfalso
        have : (nodesOf d d.client_id ++ [pushNode d len]).length ≤ i + 1 := by
          simp
          omega
        rw [List.getElem?_eq_none this] at h2
        cases h2
    · rw [nodesOf_push_ne _ _ _ hc] at h1 h2
      exact reach_ids_push wf (wf.pred_reach c i n m h1 h2) len
  · -- fr_dom
    intro n hn
    rcases (mem_allNodes_push_pn d len n).1 hn with h1 | h1
    · obtain ⟨f, hf, n₀, hget, hr⟩ := wf.fr_dom n h1
      refine ⟨(pushNode d len).id, by rw [frontier_push]; simp,
        pushNode d len, get_push_newId wf hlen, ?_⟩
      have step1 : NReach (d.push len) (pushNode d len) n₀ :=
        NReach.tail (NReach.refl _) (show f ∈ (pushNode d len).deps from hf)
          (by rw [get_push_of_contains wf (contains_of_get wf hget)]
              exact hget)
      exact step1.trans (nreach_push wf hr len)
    · exact ⟨(pushNode d len).id, by rw [frontier_push]; simp,
        pushNode d len, get_push_newId wf hlen, h1 ▸ NReach.refl _⟩

/-! ### Comparing two dags over the same histories -/

theorem ListLe_mem {α : Type} {a b : List α} (h : ListLe a b) {x : α}
    (hx : x ∈ a) : x ∈ b := by
  obtain ⟨t, ht⟩ := h
  rw [← ht]
  exact List.mem_append_left _ hx

theorem ListLe_take {α : Type} (l : List α) (i : Nat) :
    ListLe (l.take i) l := ⟨l.drop i, List.take_append_drop _ _⟩

theorem ListLe_sumLens {a b : List TestNode} (h : ListLe a b) :
    sumLens a ≤ sumLens b := by
  obtain ⟨t, ht⟩ := h
  rw [← ht, sumLens_append]
  omega

theorem sumLens_take_mono (l : List TestNode) {i j : Nat} (h : i ≤ j) :
    sumLens (l.take i) ≤ sumLens (l.take j) := by
  have h1 : l.take i = (l.take j).take i := by
    rw [List.take_take, Nat.min_eq_left h]
  rw [h1]
  exact ListLe_sumLens (ListLe_take _ _)

theorem chainFrom_of_ListLe {c k : Nat} {a b : List TestNode}
    (h : ListLe a b) (hb : chainFrom c k b) : chainFrom c k a := by
  obtain ⟨t, ht⟩ := h
  rw [← ht] at hb
  exact (chainFrom_append.1 hb).1

theorem chain_getElem {c k : Nat} {l : List TestNode} (h : chainFrom c k l)
    {i : Nat} (hi : i < l.length) :
    l[i].id = ⟨c, k + sumLens (l.take i)⟩ := by
  induction l generalizing k i with
  | nil => simp at hi
  | cons n rest ih =>
    obtain ⟨hid, hlen, hrest⟩ := h
    cases i with
    | zero => simpa [sumLens_nil] using hid
    | succ j =>
      simp only [List.getElem_cons_succ, List.take_succ_cons, sumLens_cons]
      rw [ih hrest (by simpa using hi)]
      congr 1
      omega

theorem find_agree {c : Nat} {l₁ l₂ : List TestNode} (h12 : ListLe l₁ l₂)
    (h1 : chainFrom c 0 l₁) {x : Nat} (hx : x < sumLens l₁) :
    l₂.find? (spanHit x) = l₁.find? (spanHit x) := by
  obtain ⟨t, ht⟩ := h12
  rw [← ht, List.find?_append]
  obtain ⟨n, hf, -⟩ :=
    chain_find_covers (x := x) h1 (Nat.zero_le _) (by omega)
  rw [hf]
  rfl

/-- The pairwise compatibility of two dags: for every client, one's
node list is an initial segment of the other's. -/
def Compat (d₁ d₂ : TestDag) : Prop :=
  ∀ c, ListLe (nodesOf d₁ c) (nodesOf d₂ c) ∨
    ListLe (nodesOf d₂ c) (nodesOf d₁ c)

theorem get_agree {d₁ d₂ : TestDag} (w₁ : DagWF d₁) (w₂ : DagWF d₂)
    (hcomp : Compat d₁ d₂) {id : ID} (hc₁ : d₁.contains id = true)
    (hc₂ : d₂.contains id = true) : d₁.get id = d₂.get id := by
  rw [get_eq_find, get_eq_find]
  rcases hcomp id.clientId with h | h
  · rw [find_agree h (w₁.chain _) ((contains_iff_sum w₁ id).1 hc₁)]
  · rw [find_agree h (w₂.chain _) ((contains_iff_sum w₂ id).1 hc₂)]

theorem nreach_into {other M : TestDag} (wo : DagWF other) (wm : DagWF M)
    (hcomp : Compat M other) {n₀ m : TestNode} (h0 : n₀ ∈ allNodes M)
    (hr : NReach other n₀ m) : m ∈ allNodes M ∧ NReach M n₀ m := by
  induction hr with
  | refl => exact ⟨h0, NReach.refl _⟩
  | tail hr' hdep hget ih =>
    rename_i b c' dep
    obtain ⟨hbm, hMr⟩ := ih
    have hMc := wm.closure _ hbm _ hdep
    have hOc := contains_of_get wo hget
    have hMg : M.get dep = some c' := by
      rw [get_agree wm wo hcomp hMc hOc]
      exact hget
    exact ⟨get_mem_allNodes hMg, NReach.tail hMr hdep hMg⟩

theorem reach_ids_into {other M : TestDag} (wo : DagWF other)
    (wm : DagWF M) (hcomp : Compat M other) {ids : List ID} {m : TestNode}
    (hr : ReachFromIds other ids m)
    (hids : ∀ dep ∈ ids, M.contains dep = true) :
    m ∈ allNodes M ∧ ReachFromIds M ids m := by
  obtain ⟨dep, hdep, n₀, hget, hnr⟩ := hr
  have hMc := hids dep hdep
  have hMg : M.get dep = some n₀ := by
    rw [get_agree wm wo hcomp hMc (contains_of_get wo hget)]
    exact hget
  obtain ⟨hm, hr'⟩ := nreach_into wo wm hcomp (get_mem_allNodes hMg) hnr
  exact ⟨hm, dep, hdep, n₀, hMg, hr'⟩

/-! ### The effect of admitNode on lookups and reachability -/

theorem get_admit_of_contains {M : TestDag} (wm : DagWF M) {n : TestNode}
    {id : ID} (h : M.contains id = true) :
    (admitNode M n).get id = M.get id := by
  by_cases hc : id.clientId = n.id.clientId
  · rw [get_eq_find, get_eq_find, hc, nodesOf_admit_self, List.find?_append]
    obtain ⟨m, h1, -⟩ := get_of_contains wm h
    rw [get_eq_find, hc] at h1
    rw [h1]
    rfl
  · rw [get_eq_find, get_eq_find, nodesOf_admit_ne _ _ _ hc]

theorem contains_admit_mono {M : TestDag} (wm : DagWF M) {n : TestNode}
    (hnc : M.contains n.id = false) {id : ID} (h : M.contains id = true) :
    (admitNode M n).contains id = true := by
  by_cases hc : id.clientId = n.id.clientId
  · have hsum : sumLens (nodesOf M n.id.clientId) ≤ n.id.counter := by
      have := contains_iff_sum wm n.id
      rw [hnc] at this
      simp at this
      omega
    have hxs := (contains_iff_sum wm id).1 h
    unfold TestDag.contains
    rw [hc, vvGet_admit_self]
    simp
    rw [hc] at hxs
    omega
  · unfold TestDag.contains
    rw [vvGet_admit_ne _ _ _ hc]
    exact h

theorem nreach_admitN {M : TestDag} (wm : DagWF M) {n a b : TestNode}
    (h : NReach M a b) : NReach (admitNode M n) a b := by
  induction h with
  | refl => exact NReach.refl _
  | tail _ hdep hget ih =>
    exact NReach.tail ih hdep
      (by rw [get_admit_of_contains wm (contains_of_get wm hget)]
          exact hget)

theorem reach_ids_admitN {M : TestDag} (wm : DagWF M) {n : TestNode}
    {ids : List ID} {m : TestNode} (h : ReachFromIds M ids m) :
    ReachFromIds (admitNode M n) ids m := by
  obtain ⟨dep, hdep, n₀, hget, hr⟩ := h
  exact ⟨dep, hdep, n₀,
    by rw [get_admit_of_contains wm (contains_of_get wm hget)]; exact hget,
    nreach_admitN wm hr⟩

theorem mem_update_frontier (fr : List ID) (nid : ID) (deps : List ID)
    (id : ID) : id ∈ update_frontier fr nid deps ↔
      (id ∈ fr ∧ id ∉ deps) ∨ id = nid := by
  simp [update_frontier, List.mem_filter]

theorem nodesOf_admit_mem {M : TestDag} {c : Nat} {x : TestNode}
    (n : TestNode) (h : x ∈ nodesOf M c) : x ∈ nodesOf (admitNode M n) c := by
  by_cases hc : c = n.id.clientId
  · subst hc
    rw [nodesOf_admit_self]
    exact List.mem_append_left _ h
  · rw [nodesOf_admit_ne _ _ _ hc]
    exact h

theorem get_some_mem_nodesOf {d : TestDag} {id : ID} {m : TestNode}
    (h : d.get id = some m) : m ∈ nodesOf d id.clientId := by
  rw [get_eq_find] at h
  exact List.mem_of_find?_eq_some h

/-- Central admission lemma: when `_try_push_node` admits a node taken
from a compatible well-formed history, the node is exactly the next
span of its client, and every invariant is preserved. -/
theorem admit_wf {other M : TestDag} (wo : DagWF other) (wm : DagWF M)
    (hcomp : Compat M other) {n : TestNode}
    (hn : n ∈ nodesOf other n.id.clientId)
    (hnc : M.contains n.id = false)
    (hdeps : ∀ dep ∈ n.deps, M.contains dep = true) :
    DagWF (admitNode M n) ∧
      nodesOf (admitNode M n) n.id.clientId =
        nodesOf M n.id.clientId ++ [n] ∧
      ListLe (nodesOf (admitNode M n) n.id.clientId)
        (nodesOf other n.id.clientId) := by
  have hnall : n ∈ allNodes other := mem_allNodes_of_nodesOf hn
  have hblen : 1 ≤ n.len := (chainFrom_mem (wo.chain _) hn).2.1
  have hMle : ListLe (nodesOf M n.id.clientId) (nodesOf other n.id.clientId) := by
    rcases hcomp n.id.clientId with h | h
    · exact h
    · exfalso
      obtain ⟨-, h1, -, h2⟩ := chainFrom_mem (wm.chain n.id.clientId)
        (ListLe_mem h hn)
      have hct : M.contains n.id = true :=
        (contains_iff_sum wm n.id).2 (by omega)
      rw [hct] at hnc
      cases hnc
  obtain ⟨p, hp, hpe⟩ := List.getElem_of_mem hn
  have hctr : n.id.counter =
      sumLens ((nodesOf other n.id.clientId).take p) := by
    have h1 := chain_getElem (wo.chain n.id.clientId) hp
    rw [hpe] at h1
    simpa using congrArg ID.counter h1
  have hge : sumLens (nodesOf M n.id.clientId) ≤ n.id.counter := by
    by_contra hlt
    have hct : M.contains n.id = true :=
      (contains_iff_sum wm n.id).2 (by omega)
    rw [hct] at hnc
    cases hnc
  have hMeq : nodesOf M n.id.clientId =
      (nodesOf other n.id.clientId).take
        ((nodesOf M n.id.clientId).length) := ListLe_eq_take hMle
  have hlenM : (nodesOf M n.id.clientId).length = p := by
    rcases Nat.lt_trichotomy ((nodesOf M n.id.clientId).length) p with
      hlt | heq | hgt
    · exfalso
      cases hq : (nodesOf other n.id.clientId)[p - 1]? with
      | none =>
        rw [List.getElem?_eq_none_iff] at hq
        omega
      | some pred =>
        have h2 : (nodesOf other n.id.clientId)[p - 1 + 1]? = some n := by
          have hpp : p - 1 + 1 = p := by omega
          rw [hpp, List.getElem?_eq_getElem hp, hpe]
        have hre := wo.pred_reach _ (p - 1) pred n hq h2
        obtain ⟨hpm, -⟩ := reach_ids_into wo wm hcomp hre hdeps
        have hpredmem_o : pred ∈ nodesOf other n.id.clientId := by
          rcases List.getElem?_eq_some.1 hq with ⟨hh, he⟩
          rw [← he]
          exact List.getElem_mem hh
        have hpc : pred.id.clientId = n.id.clientId :=
          (chainFrom_mem (wo.chain _) hpredmem_o).1
        have hpredM : pred ∈ nodesOf M n.id.clientId := by
          have := nodesOf_of_mem_allNodes wm.keys_nodup wm.keys_match hpm
          rw [hpc] at this
          exact this
        obtain ⟨-, hbl, -, hbs⟩ :=
          chainFrom_mem (wm.chain n.id.clientId) hpredM
        have hpctr : pred.id.counter =
            sumLens ((nodesOf other n.id.clientId).take (p - 1)) := by
          rcases List.getElem?_eq_some.1 hq with ⟨hh, he⟩
          have := chain_getElem (wo.chain n.id.clientId) hh
          rw [he] at this
          simpa using congrArg ID.counter this
        have hmono := sumLens_take_mono (nodesOf other n.id.clientId)
          (show (nodesOf M n.id.clientId).length ≤ p - 1 by omega)
        rw [← hMeq] at hmono
        omega
    · exact heq
    · exfalso
      have hnM : n ∈ nodesOf M n.id.clientId := by
        rw [hMeq]
        have hq : ((nodesOf other n.id.clientId).take
            ((nodesOf M n.id.clientId).length))[p]? = some n := by
          rw [List.getElem?_take_of_lt hgt, List.getElem?_eq_getElem hp, hpe]
        rcases List.getElem?_eq_some.1 hq with ⟨hh, he⟩
        have hmem := List.getElem_mem hh
        rw [he] at hmem
        exact hmem
      obtain ⟨-, h1, -, h2⟩ := chainFrom_mem (wm.chain n.id.clientId) hnM
      omega
  have hsumM : sumLens (nodesOf M n.id.clientId) = n.id.counter := by
    rw [hMeq, hlenM]
    exact hctr.symm
  have hres : nodesOf (admitNode M n) n.id.clientId =
      nodesOf M n.id.clientId ++ [n] := nodesOf_admit_self M n
  have htake : (nodesOf other n.id.clientId).take (p + 1) =
      nodesOf M n.id.clientId ++ [n] := by
    rw [List.take_succ, List.getElem?_eq_getElem hp, hpe]
    rw [hMeq, hlenM]
    rfl
  have hresle : ListLe (nodesOf (admitNode M n) n.id.clientId)
      (nodesOf other n.id.clientId) := by
    rw [hres, ← htake]
    exact ListLe_take _ _
  have hgetn : (admitNode M n).get n.id = some n := by
    rw [get_eq_find, hres, List.find?_append]
    have h1 : (nodesOf M n.id.clientId).find? (spanHit n.id.counter) = none :=
      chain_find_ge (wm.chain _) (by omega)
    rw [h1]
    have h2 : spanHit n.id.counter n = true := by
      simp [spanHit]
      omega
    simp [h2]
  refine ⟨⟨?_, ?_, ?_, ?_, ?_, ?_, ?_, ?_, ?_, ?_, ?_, ?_, ?_, ?_⟩,
    hres, hresle⟩
  · -- keys_match
    intro q hq x hx
    rcases mem_aModify hq with h1 | ⟨h1, h2⟩
    · exact wm.keys_match q h1 x hx
    · rw [h2] at hx
      rcases List.mem_append.1 hx with h3 | h3
      · have := chainFrom_mem (wm.chain n.id.clientId)
          (show x ∈ nodesOf M n.id.clientId from h3)
        rw [h1]
        exact this.1
      · simp at h3
        rw [h3, h1]
  · -- keys_ne
    intro q hq
    rcases mem_aModify hq with h1 | ⟨-, h2⟩
    · exact wm.keys_ne q h1
    · rw [h2]
      simp
  · -- keys_nodup
    exact aModify_keys_nodup _ _ _ wm.keys_nodup
  · -- chain
    intro c
    by_cases hc : c = n.id.clientId
    · subst hc
      rw [hres]
      refine chainFrom_append.2 ⟨wm.chain _, ?_, hblen, trivial⟩
      show n.id = _
      rw [hsumM]
      simp
    · rw [nodesOf_admit_ne _ _ _ hc]
      exact wm.chain c
  · -- vv_ok
    intro c
    by_cases hc : c = n.id.clientId
    · subst hc
      rw [vvGet_admit_self, hres]
      have hne : nodesOf M n.id.clientId ++ [n] ≠ [] := by simp
      rw [if_neg hne, sumLens_append]
      simp [sumLens_cons, sumLens_nil, hsumM]
    · rw [vvGet_admit_ne _ _ _ hc, nodesOf_admit_ne _ _ _ hc]
      exact wm.vv_ok c
  · -- closure
    intro x hx dep hdep
    rcases (mem_allNodes_admitN M n x).1 hx with h1 | h1
    · exact contains_admit_mono wm hnc (wm.closure x h1 dep hdep)
    · rw [h1] at hdep
      exact contains_admit_mono wm hnc (hdeps dep hdep)
  · -- dep_start
    intro x hx dep hdep
    rcases (mem_allNodes_admitN M n x).1 hx with h1 | h1
    · obtain ⟨m, hm, hid⟩ := wm.dep_start x h1 dep hdep
      exact ⟨m, nodesOf_admit_mem n hm, hid⟩
    · rw [h1] at hdep
      obtain ⟨m, hmo, hmid⟩ := wo.dep_start n hnall dep hdep
      have hbm := chainFrom_mem (wo.chain dep.clientId) hmo
      have hcov : other.get dep = some m := by
        rw [get_eq_find]
        exact chain_find_of_mem (wo.chain dep.clientId) hmo
          (by rw [hmid]) (by rw [hmid]; omega)
      have hMg : M.get dep = some m := by
        rw [get_agree wm wo hcomp (hdeps dep hdep)
          (contains_of_get wo hcov)]
        exact hcov
      exact ⟨m, nodesOf_admit_mem n (get_some_mem_nodesOf hMg), hmid⟩
  · -- dep_dom
    intro x hx dep hdep m hm
    rcases (mem_allNodes_admitN M n x).1 hx with h1 | h1
    · rw [get_admit_of_contains wm (wm.closure x h1 dep hdep)] at hm
      exact wm.dep_dom x h1 dep hdep m hm
    · rw [h1] at hdep ⊢
      rw [get_admit_of_contains wm (hdeps dep hdep)] at hm
      have hog : other.get dep = some m := by
        rw [← get_agree wm wo hcomp (hdeps dep hdep) (wo.closure n hnall dep hdep)]
        exact hm
      exact wo.dep_dom n hnall dep hdep m hog
  · -- lam_ub
    intro x hx
    rcases (mem_allNodes_admitN M n x).1 hx with h1 | h1
    · have := wm.lam_ub x h1
      show x.lamport + x.len ≤ max M.next_lamport (n.lamport + n.len)
      omega
    · rw [h1]
      show n.lamport + n.len ≤ max M.next_lamport (n.lamport + n.len)
      omega
  · -- lam_sup
    rcases le_total (n.lamport + n.len) M.next_lamport with h | h
    · rcases wm.lam_sup with h0 | ⟨m, hm, he⟩
      · exact Or.inr ⟨n, (mem_allNodes_admitN M n n).2 (Or.inr rfl),
          by show n.lamport + n.len = max M.next_lamport _; omega⟩
      · exact Or.inr ⟨m, (mem_allNodes_admitN M n m).2 (Or.inl hm),
          by show m.lamport + m.len = max M.next_lamport _; omega⟩
    · exact Or.inr ⟨n, (mem_allNodes_admitN M n n).2 (Or.inr rfl),
        by show n.lamport + n.len = max M.next_lamport _; omega⟩
  · -- fr_nodup
    show (update_frontier M.frontier n.id n.deps).Nodup
    unfold update_frontier
    rw [List.nodup_append]
    refine ⟨wm.fr_nodup.filter _, List.nodup_singleton _, ?_⟩
    intro a ha hb
    simp at hb
    subst hb
    have := frontier_contained wm (List.mem_of_mem_filter ha)
    rw [this] at hnc
    cases hnc
  · -- fr_char
    intro id
    show id ∈ update_frontier M.frontier n.id n.deps ↔ _
    rw [mem_update_frontier]
    constructor
    · rintro (⟨hfr, hnd⟩ | hid)
      · obtain ⟨⟨x, hx, hxid⟩, hall⟩ := (wm.fr_char id).1 hfr
        refine ⟨⟨x, (mem_allNodes_admitN M n x).2 (Or.inl hx), hxid⟩, ?_⟩
        intro m hm
        rcases (mem_allNodes_admitN M n m).1 hm with h1 | h1
        · exact hall m h1
        · rw [h1]
          exact hnd
      · subst hid
        refine ⟨⟨n, (mem_allNodes_admitN M n n).2 (Or.inr rfl), rfl⟩, ?_⟩
        intro m hm hin
        rcases (mem_allNodes_admitN M n m).1 hm with h1 | h1
        · have := dep_contained_counter wm h1 hin
          omega
        · rw [h1] at hin
          have := (contains_iff_sum wm n.id).1 (hdeps n.id hin)
          omega
    · rintro ⟨⟨x, hx, hxid⟩, hall⟩
      rcases (mem_allNodes_admitN M n x).1 hx with h1 | h1
      · left
        refine ⟨(wm.fr_char id).2 ⟨⟨x, h1, hxid⟩, fun m hm =>
          hall m ((mem_allNodes_admitN M n m).2 (Or.inl hm))⟩, ?_⟩
        exact hall n ((mem_allNodes_admitN M n n).2 (Or.inr rfl))
      · right
        rw [← hxid, h1]
  · -- pred_reach
    intro c i n₁ m₁ h1 h2
    by_cases hc : c = n.id.clientId
    · subst hc
      rw [hres] at h1 h2
      rcases Nat.lt_trichotomy (i + 1) ((nodesOf M n.id.clientId).length)
        with hlt | heq | hgt
      · rw [List.getElem?_append_left (by omega)] at h1
        rw [List.getElem?_append_left hlt] at h2
        exact reach_ids_admitN wm (wm.pred_reach _ i n₁ m₁ h1 h2)
      · rw [List.getElem?_append_left (by omega)] at h1
        rw [heq, List.getElem?_concat_length] at h2
        have hm₁ : m₁ = n := (Option.some_injective _ h2).symm
        rw [hm₁]
        have h1o : (nodesOf other n.id.clientId)[i]? = some n₁ := by
          rw [hMeq, hlenM] at h1
          rw [← List.getElem?_take_of_lt (show i < p by omega)]
          exact h1
        have h2o : (nodesOf other n.id.clientId)[i + 1]? = some n := by
          have hip : i + 1 = p := by omega
          rw [hip, List.getElem?_eq_getElem hp, hpe]
        have hre := wo.pred_reach _ i n₁ n h1o h2o
        obtain ⟨-, hrm⟩ := reach_ids_into wo wm hcomp hre hdeps
        exact reach_ids_admitN wm hrm
      · exfalso
        have hlen2 : (nodesOf M n.id.clientId ++ [n]).length ≤ i + 1 := by
          simp
          omega
        rw [List.getElem?_eq_none hlen2] at h2
        cases h2
    · rw [nodesOf_admit_ne _ _ _ hc] at h1 h2
      exact reach_ids_admitN wm (wm.pred_reach c i n₁ m₁ h1 h2)
  · -- fr_dom
    intro x hx
    rcases (mem_allNodes_admitN M n x).1 hx with h1 | h1
    · obtain ⟨f, hf, n₀, hget, hr⟩ := wm.fr_dom x h1
      by_cases hfd : f ∈ n.deps
      · refine ⟨n.id, (mem_update_frontier _ _ _ _).2 (Or.inr rfl), n,
          hgetn, ?_⟩
        have hMf : (admitNode M n).get f = some n₀ := by
          rw [get_admit_of_contains wm (contains_of_get wm hget)]
          exact hget
        exact (NReach.tail (NReach.refl n) hfd hMf).trans (nreach_admitN wm hr)
      · refine ⟨f, (mem_update_frontier _ _ _ _).2 (Or.inl ⟨hf, hfd⟩), n₀,
          by rw [get_admit_of_contains wm (contains_of_get wm hget)]
             exact hget, nreach_admitN wm hr⟩
    · exact ⟨n.id, (mem_update_frontier _ _ _ _).2 (Or.inr rfl), n, hgetn,
        h1 ▸ NReach.refl _⟩

/-! ### Merge preserves the invariants -/

theorem ListLe_nil_right {α : Type} {a : List α} (h : ListLe a []) :
    a = [] := by
  obtain ⟨t, ht⟩ := h
  cases a with
  | nil => rfl
  | cons x xs => simp at ht

theorem ListLe_of_length_le {α : Type} {a b : List α}
    (h : ListLe a b ∨ ListLe b a) (hl : b.length ≤ a.length) :
    ListLe b a := by
  rcases h with h | h
  · have h1 := ListLe_length h
    have h2 : a.length = b.length := by omega
    obtain ⟨t, ht⟩ := h
    have := congrArg List.length ht
    simp at this
    have hnil : t = [] := List.eq_nil_of_length_eq_zero (by omega)
    rw [hnil] at ht
    simp at ht
    rw [ht]
    exact ListLe_refl _
  · exact h

/-- Exhaustive case analysis of `_try_push_node`. -/
theorem tryPushNode_cases (d : TestDag) (n : TestNode)
    (pending : List (Nat × Nat)) (i : Nat) :
    (d.contains n.id = true ∧ tryPushNode d n pending i = (d, pending, false))
    ∨ (d.contains n.id = false ∧ (∃ dep ∈ n.deps, d.contains dep = false) ∧
        tryPushNode d n pending i =
          (d, pending ++ [(n.id.clientId, i)], true))
    ∨ (d.contains n.id = false ∧ (∀ dep ∈ n.deps, d.contains dep = true) ∧
        tryPushNode d n pending i = (admitNode d n, pending, false)) := by
  unfold tryPushNode
  by_cases h1 : d.contains n.id
  · exact Or.inl ⟨h1, by simp [h1]⟩
  · simp only [Bool.not_eq_true] at h1
    by_cases h2 : n.deps.any fun dep => !(d.contains dep)
    · refine Or.inr (Or.inl ⟨h1, ?_, by simp [h1, h2]⟩)
      rcases List.any_eq_true.1 h2 with ⟨dep, hdep, hff⟩
      exact ⟨dep, hdep, by simpa using hff⟩
    · refine Or.inr (Or.inr ⟨h1, ?_, by simp [h1, h2]⟩)
      intro dep hdep
      cases hcd : d.contains dep with
      | true => rfl
      | false =>
        exact absurd (List.any_eq_true.2 ⟨dep, hdep, by simp [hcd]⟩) h2

/-- The per-client target of a merge: whichever of the two lists is
longer. -/
def unionOf (A other : TestDag) (c : Nat) : List TestNode :=
  if (nodesOf A c).length < (nodesOf other c).length then nodesOf other c
  else nodesOf A c

/-- Invariant maintained by every intermediate state of
`A.merge(other)`. -/
def MInv (A other M : TestDag) : Prop :=
  DagWF M ∧ Compat M other ∧ M.client_id = A.client_id ∧
    (∀ c, ListLe (nodesOf A c) (nodesOf M c)) ∧
    (∀ c, ListLe (nodesOf M c) (unionOf A other c))

theorem other_le_unionOf {A other : TestDag} (hco : Compat A other)
    (c : Nat) : ListLe (nodesOf other c) (unionOf A other c) := by
  unfold unionOf
  by_cases h : (nodesOf A c).length < (nodesOf other c).length
  · simp [h, ListLe_refl]
  · simp only [h, ite_false]
    exact ListLe_of_length_le (hco c) (by omega)

theorem admit_minv {A other M : TestDag} (wo : DagWF other)
    (hco : Compat A other) (hI : MInv A other M) {n : TestNode}
    (hn : n ∈ nodesOf other n.id.clientId)
    (hnc : M.contains n.id = false)
    (hdeps : ∀ dep ∈ n.deps, M.contains dep = true) :
    MInv A other (admitNode M n) := by
  obtain ⟨wm, hcm, hcid, hgrow, hub⟩ := hI
  obtain ⟨wf', hres, hle⟩ := admit_wf wo wm hcm hn hnc hdeps
  refine ⟨wf', ?_, hcid, ?_, ?_⟩
  · intro c
    by_cases hc : c = n.id.clientId
    · subst hc
      exact Or.inl hle
    · rw [nodesOf_admit_ne _ _ _ hc]
      exact hcm c
  · intro c
    by_cases hc : c = n.id.clientId
    · subst hc
      rw [hres]
      exact ListLe_trans (hgrow _) (ListLe_append _ _)
    · rw [nodesOf_admit_ne _ _ _ hc]
      exact hgrow c
  · intro c
    by_cases hc : c = n.id.clientId
    · subst hc
      exact ListLe_trans hle (other_le_unionOf hco _)
    · rw [nodesOf_admit_ne _ _ _ hc]
      exact hub c

theorem mergeScan_minv {A other : TestDag} (wo : DagWF other)
    (hco : Compat A other) :
    ∀ (l : List TestNode) (M : TestDag) (pending : List (Nat × Nat))
      (i : Nat), MInv A other M →
      (∀ x ∈ l, x ∈ nodesOf other x.id.clientId) →
      MInv A other (mergeScan M pending l i).1 := by
  intro l
  induction l with
  | nil =>
    intro M pending i hI _
    exact hI
  | cons node rest ih =>
    intro M pending i hI hmem
    rcases tryPushNode_cases M node pending i with ⟨-, he⟩ |
      ⟨-, -, he⟩ | ⟨h1, h2, he⟩
    · simp only [mergeScan, he]
      exact ih M pending (i + 1) hI fun x hx => hmem x (List.mem_cons_of_mem _ hx)
    · simp only [mergeScan, he]
      exact hI
    · simp only [mergeScan, he]
      exact ih (admitNode M node) pending (i + 1)
        (admit_minv wo hco hI (hmem node (List.mem_cons_self _ _)) h1 h2)
        (fun x hx => hmem x (List.mem_cons_of_mem _ hx))

theorem entry_mem_nodesOf {other : TestDag} (wo : DagWF other)
    {p : Nat × List TestNode} (hp : p ∈ other.nodes) :
    ∀ x ∈ p.2, x ∈ nodesOf other x.id.clientId := by
  intro x hx
  have hc : x.id.clientId = p.1 := wo.keys_match p hp x hx
  have := mem_alookup_of_nodup wo.keys_nodup
    (show (p.1, p.2) ∈ other.nodes by simpa using hp)
  rw [nodesOf, hc, this]
  simpa using hx

theorem alist_mem_nodesOf {other : TestDag} (wo : DagWF other) (k : Nat) :
    ∀ x ∈ (alookup other.nodes k).getD [], x ∈ nodesOf other x.id.clientId := by
  cases he : alookup other.nodes k with
  | none => simp
  | some l =>
    intro x hx
    exact entry_mem_nodesOf wo (alookup_mem he) x (by simpa using hx)

theorem mergeOuter_minv {A other : TestDag} (wo : DagWF other)
    (hco : Compat A other) :
    ∀ (es : List (Nat × List TestNode)) (M : TestDag)
      (pending : List (Nat × Nat)), (∀ p ∈ es, p ∈ other.nodes) →
      MInv A other M → MInv A other (mergeOuter M pending es).1 := by
  intro es
  induction es with
  | nil =>
    intro M pending _ hI
    exact hI
  | cons p rest ih =>
    intro M pending hes hI
    obtain ⟨c', vec⟩ := p
    simp only [mergeOuter]
    exact ih _ _ (fun q hq => hes q (List.mem_cons_of_mem _ hq))
      (mergeScan_minv wo hco vec M pending 0 hI
        (entry_mem_nodesOf wo (hes _ (List.mem_cons_self _ _))))

theorem mergeLoopStep_minv {A other : TestDag} (wo : DagWF other)
    (hco : Compat A other) {M : TestDag} {cur pend : List (Nat × Nat)}
    (hI : MInv A other M) :
    (∀ d', mergeLoopStep other M cur pend = .done d' → MInv A other d') ∧
    (∀ d' c' p', mergeLoopStep other M cur pend = .cont d' c' p' →
      MInv A other d') := by
  unfold mergeLoopStep
  by_cases h1 : cur.isEmpty && pend.isEmpty
  · simp only [h1, ite_true]
    exact ⟨fun d' he => (by cases he; exact hI),
      fun d' c' p' he => (by cases he)⟩
  · simp only [h1, ite_false]
    cases hlast : (if cur.isEmpty then (pend, ([] : List (Nat × Nat)))
        else (cur, pend)).1.getLast? with
    | none =>
      exact ⟨fun d' he => (by cases he; exact hI),
        fun d' c' p' he => (by cases he)⟩
    | some e =>
      refine ⟨fun d' he => (by cases he), fun d' c' p' he => ?_⟩
      cases he
      exact mergeScan_minv wo hco _ M _ e.2 hI
        fun x hx => alist_mem_nodesOf wo e.1 x (List.mem_of_mem_drop hx)

theorem mergeLoop_minv {A other : TestDag} (wo : DagWF other)
    (hco : Compat A other) :
    ∀ (fuel : Nat) (M : TestDag) (cur pend : List (Nat × Nat)),
      MInv A other M → MInv A other (mergeLoop other fuel M cur pend) := by
  intro fuel
  induction fuel with
  | zero =>
    intro M cur pend hI
    exact hI
  | succ f ih =>
    intro M cur pend hI
    unfold mergeLoop
    cases hs : mergeLoopStep other M cur pend with
    | done d' => exact (mergeLoopStep_minv wo hco hI).1 d' hs
    | cont d' c' p' => exact ih d' c' p' ((mergeLoopStep_minv wo hco hI).2 d' c' p' hs)

theorem merge_minv {A other : TestDag} (wa : DagWF A) (wo : DagWF other)
    (hco : Compat A other) : MInv A other (A.merge other) := by
  have hI0 : MInv A other A := by
    refine ⟨wa, hco, rfl, fun c => ListLe_refl _, fun c => ?_⟩
    unfold unionOf
    by_cases h : (nodesOf A c).length < (nodesOf other c).length
    · simp only [h, ite_true]
      exact ListLe_of_length_le (Or.symm (hco c)) (by omega)
    · simp [h, ListLe_refl]
  unfold TestDag.merge
  exact mergeLoop_minv wo hco _ _ _ _
    (mergeOuter_minv wo hco other.nodes A [] (fun p hp => hp) hI0)

/-! ### System-level invariant -/

/-- Invariant of a whole multi-replica system: each dag is well formed,
carries its own index as client id, holds at most what the owning
replica has produced, and nothing at all for non-existent replicas. -/
structure SysWF (s : List TestDag) : Prop where
  cid : ∀ i, ∀ h : i < s.length, (s.get ⟨i, h⟩).client_id = i
  wf : ∀ i, ∀ h : i < s.length, DagWF (s.get ⟨i, h⟩)
  owner : ∀ i c, ∀ hi : i < s.length, ∀ hc : c < s.length,
    ListLe (nodesOf (s.get ⟨i, hi⟩) c) (nodesOf (s.get ⟨c, hc⟩) c)
  far : ∀ i, ∀ hi : i < s.length, ∀ c : Nat, s.length ≤ c →
    nodesOf (s.get ⟨i, hi⟩) c = []

theorem sys_compat {s : List TestDag} (hs : SysWF s) {i j : Nat}
    (hi : i < s.length) (hj : j < s.length) :
    Compat (s.get ⟨i, hi⟩) (s.get ⟨j, hj⟩) := by
  intro c
  by_cases hc : c < s.length
  · exact ListLe_total (hs.owner i c hi hc) (hs.owner j c hj hc)
  · rw [hs.far i hi c (by omega), hs.far j hj c (by omega)]
    exact Or.inl (ListLe_refl _)

theorem nodesOf_new (client c : Nat) : nodesOf (TestDag.new client) c = [] :=
  rfl

theorem initSystem_get (k i : Nat) (h : i < (initSystem k).length) :
    (initSystem k).get ⟨i, h⟩ = TestDag.new i := by
  simp [initSystem]

theorem initSystem_wf (k : Nat) : SysWF (initSystem k) := by
  refine ⟨?_, ?_, ?_, ?_⟩
  · intro i h
    rw [initSystem_get]
    rfl
  · intro i h
    rw [initSystem_get]
    exact new_wf i
  · intro i c hi hc
    rw [initSystem_get, initSystem_get, nodesOf_new, nodesOf_new]
    exact ListLe_refl _
  · intro i hi c hc
    rw [initSystem_get, nodesOf_new]

theorem nodesOf_push_grow (d : TestDag) (len : Nat) (c : Nat) :
    ListLe (nodesOf d c) (nodesOf (d.push len) c) := by
  by_cases hc : c = d.client_id
  · subst hc
    rw [nodesOf_push_self_pn]
    exact ListLe_append _ _
  · rw [nodesOf_push_ne _ _ _ hc]
    exact ListLe_refl _

theorem unionOf_le {A other o : TestDag} {c : Nat}
    (hA : ListLe (nodesOf A c) (nodesOf o c))
    (hB : ListLe (nodesOf other c) (nodesOf o c)) :
    ListLe (unionOf A other c) (nodesOf o c) := by
  unfold unionOf
  by_cases h : (nodesOf A c).length < (nodesOf other c).length <;>
    simp [h, hA, hB]

theorem unionOf_nil {A other : TestDag} {c : Nat}
    (hA : nodesOf A c = []) (hB : nodesOf other c = []) :
    unionOf A other c = [] := by
  unfold unionOf
  rw [hA, hB]
  simp

theorem step_wf {s s' : List TestDag} (hs : SysWF s) (hst : Step s s') :
    SysWF s' := by
  have hcid' : ∀ i, ∀ h : i < s.length, s[i].client_id = i := by
    intro i h
    have := hs.cid i h
    simpa using this
  have hwf' : ∀ i, ∀ h : i < s.length, DagWF s[i] := by
    intro i h
    have := hs.wf i h
    simpa using this
  have howner' : ∀ i c, ∀ hi : i < s.length, ∀ hc : c < s.length,
      ListLe (nodesOf s[i] c) (nodesOf s[c] c) := by
    intro i c hi hc
    have := hs.owner i c hi hc
    simpa using this
  have hfar' : ∀ i, ∀ hi : i < s.length, ∀ c, s.length ≤ c →
      nodesOf s[i] c = [] := by
    intro i hi c hc
    have := hs.far i hi c hc
    simpa using this
  cases hst with
  | push i len hi hlen =>
    refine ⟨?_, ?_, ?_, ?_⟩
    · intro j h
      have hj' : j < s.length := by simpa using h
      simp only [List.get_eq_getElem]
      by_cases hij : i = j
      · subst hij
        rw [List.getElem_set_self]
        show (s.get ⟨i, hi⟩).client_id = i
        exact hs.cid i hi
      · rw [List.getElem_set_ne hij]
        exact hcid' j hj'
    · intro j h
      have hj' : j < s.length := by simpa using h
      simp only [List.get_eq_getElem]
      by_cases hij : i = j
      · subst hij
        rw [List.getElem_set_self]
        exact push_wf (hs.wf i hi) hlen
      · rw [List.getElem_set_ne hij]
        exact hwf' j hj'
    · intro i₁ c hi₁ hc
      have hi₁' : i₁ < s.length := by simpa using hi₁
      have hc' : c < s.length := by simpa using hc
      simp only [List.get_eq_getElem]
      by_cases h1 : i = i₁ <;> by_cases h2 : i = c
    -- cases are handled below, in order: (i=i₁, i=c), (i=i₁, i≠c),
    -- (i≠i₁, i=c), (i≠i₁, i≠c)
      · subst h1
        subst h2
        rw [List.getElem_set_self]
        exact ListLe_refl _
      · subst h1
        rw [List.getElem_set_self, List.getElem_set_ne h2]
        have hcli : c ≠ (s.get ⟨i, hi⟩).client_id := by
          rw [hs.cid i hi]
          omega
        show ListLe (nodesOf ((s.get ⟨i, hi⟩).push len) c) _
        rw [nodesOf_push_ne _ _ _ hcli]
        have := howner' i c hi hc'
        simpa using this
      · subst h2
        rw [List.getElem_set_ne h1, List.getElem_set_self]
        refine ListLe_trans ?_ (nodesOf_push_grow (s.get ⟨i, hi⟩) len i)
        have := howner' i₁ i hi₁' hi
        simpa using this
      · rw [List.getElem_set_ne h1, List.getElem_set_ne h2]
        exact howner' i₁ c hi₁' hc'
    · intro j hj c hc
      have hj' : j < s.length := by simpa using hj
      have hc' : s.length ≤ c := by simpa using hc
      simp only [List.get_eq_getElem]
      by_cases hij : i = j
      · subst hij
        rw [List.getElem_set_self]
        have hcli : c ≠ (s.get ⟨i, hi⟩).client_id := by
          rw [hs.cid i hi]
          omega
        show nodesOf ((s.get ⟨i, hi⟩).push len) c = []
        rw [nodesOf_push_ne _ _ _ hcli]
        have := hfar' i hi c hc'
        simpa using this
      · rw [List.getElem_set_ne hij]
        exact hfar' j hj' c hc'
  | merge i j hi hj hij =>
    have hmv := merge_minv (hs.wf i hi) (hs.wf j hj) (sys_compat hs hi hj)
    obtain ⟨wf', hcomp', hcidm, hgrow, hub⟩ := hmv
    simp only [List.get_eq_getElem] at wf' hcomp' hcidm hgrow hub
    refine ⟨?_, ?_, ?_, ?_⟩
    · intro k h
      have hk' : k < s.length := by simpa using h
      simp only [List.get_eq_getElem]
      by_cases hik : i = k
      · subst hik
        rw [List.getElem_set_self, hcidm]
        exact hs.cid i hi
      · rw [List.getElem_set_ne hik]
        exact hcid' k hk'
    · intro k h
      have hk' : k < s.length := by simpa using h
      simp only [List.get_eq_getElem]
      by_cases hik : i = k
      · subst hik
        rw [List.getElem_set_self]
        exact wf'
      · rw [List.getElem_set_ne hik]
        exact hwf' k hk'
    · intro i₁ c hi₁ hc
      have hi₁' : i₁ < s.length := by simpa using hi₁
      have hc' : c < s.length := by simpa using hc
      simp only [List.get_eq_getElem]
      by_cases h1 : i = i₁ <;> by_cases h2 : i = c
      · subst h1
        subst h2
        rw [List.getElem_set_self]
        exact ListLe_refl _
      · subst h1
        rw [List.getElem_set_self, List.getElem_set_ne h2]
        refine ListLe_trans (hub c) (unionOf_le ?_ ?_)
        · have := howner' i c hi hc'
          simpa using this
        · have := howner' j c hj hc'
          simpa using this
      · subst h2
        rw [List.getElem_set_ne h1, List.getElem_set_self]
        refine ListLe_trans ?_ (hgrow i)
        have := howner' i₁ i hi₁' hi
        simpa using this
      · rw [List.getElem_set_ne h1, List.getElem_set_ne h2]
        exact howner' i₁ c hi₁' hc'
    · intro k hk c hc
      have hk' : k < s.length := by simpa using hk
      have hc' : s.length ≤ c := by simpa using hc
      simp only [List.get_eq_getElem]
      by_cases hik : i = k
      · subst hik
        rw [List.getElem_set_self]
        refine ListLe_nil_right ?_
        have hun := unionOf_nil (hfar' i hi c hc') (hfar' j hj c hc')
        rw [← hun]
        exact hub c
      · rw [List.getElem_set_ne hik]
        exact hfar' k hk' c hc'

theorem reach_wf {s : List TestDag} (h : Reach s) : SysWF s := by
  induction h with
  | init k => exact initSystem_wf k
  | step _ hst ih => exact step_wf ih hst

/-! ### Claim C5 -/

/-- C5: `contains(id)` returns true iff the version vector has an entry
for the id's replica and the id's counter is strictly below that entry;
in particular `contains` is false for every id whose replica has no
recorded history (no version-vector entry). -/
theorem C5_contains_iff (d : TestDag) (id : ID) :
    (d.contains id = true ↔
      ∃ v, vvGet d id.clientId = some v ∧ id.counter < v) ∧
    (vvGet d id.clientId = none → d.contains id = false) := by
  unfold TestDag.contains
  cases h : vvGet d id.clientId <;> simp [h]

/-! ### Claim C1 -/

/-- C1 counterexample: on a fresh instance `push(2)` sets the frontier
to the start of the new span `(0,0)`, not to the claimed span end
`(0,1)` = `(replica, c + n - 1)`. -/
theorem C1_counterexample :
    ((TestDag.new 0).push 2).frontier = [⟨0, 0⟩] ∧
      ((TestDag.new 0).push 2).frontier ≠ [⟨0, 1⟩] := by decide

/-- C1 amended: after `push(n)` with `n ≥ 1` the frontier consists of
exactly one ID, the START of the newly created span:
`(self_replica, c)` where `c` is `version_vector[self_replica]` before
the call (0 when absent).  This holds on every instance, in particular
after every push in any sequence of pushes on a fresh single-replica
instance. -/
theorem C1_push_frontier_start (d : TestDag) (n : Nat) (_h : 1 ≤ n) :
    (d.push n).frontier = [⟨d.client_id, (vvGet d d.client_id).getD 0⟩] :=
  rfl

theorem C1_push_frontier_start_witness :
    1 ≤ 2 ∧ ((TestDag.new 0).push 2).frontier = [⟨0, 0⟩] :=
  ⟨by decide, C1_push_frontier_start (TestDag.new 0) 2 (by decide)⟩

/-! ### Claim C4 -/

/-- C4 counterexample: `push(0)` does not fail with `InvalidArgument`
(the source `push` has no error path at all), and it does not leave the
instance unchanged: on a fresh instance it moves the frontier and adds
a node. -/
theorem C4_counterexample :
    ((TestDag.new 0).push 0).frontier ≠ (TestDag.new 0).frontier ∧
      (TestDag.new 0).push 0 ≠ TestDag.new 0 := by decide

/-- C4 amended: `push` never fails for any `len`: it always appends one
node (also when `len = 0`, yielding a zero-length node), always resets
the frontier to the new span-start id, and advances `next_lamport` by
`len` (so the lamport clock is unchanged exactly when `len = 0`). -/
theorem C4_push_total (d : TestDag) (len : Nat) :
    (nodesOf (d.push len) d.client_id).length =
      (nodesOf d d.client_id).length + 1 ∧
    (d.push len).frontier = [⟨d.client_id, (vvGet d d.client_id).getD 0⟩] ∧
    (d.push len).next_lamport = d.next_lamport + len := by
  refine ⟨?_, rfl, rfl⟩
  rw [nodesOf_push_self]
  simp

/-! ### Claim C8 -/

/-- The successive states of the concrete two-replica scenario of the
`test_dag` unit test. -/
def c8_a1 : TestDag := TestDag.push (TestDag.new 0) 1

def c8_b1 : TestDag := TestDag.push (TestDag.new 1) 1

def c8_a2 : TestDag := TestDag.merge c8_a1 c8_b1

def c8_a3 : TestDag := TestDag.push c8_a2 1

def c8_a4 : TestDag := TestDag.push c8_a3 1

def c8_b2 : TestDag := TestDag.push c8_b1 1

def c8_b3 : TestDag := TestDag.merge c8_b2 c8_a4

/-- C8: the concrete two-replica scenario: after the pushes and merges
of the source's `test_dag` test, each intermediate frontier is as
claimed and `get_common_ancestor({0,2},{1,1})` on replica 1 returns
`Some({1,0})`. -/
theorem C8_scenario :
    c8_a1.frontier = [⟨0, 0⟩] ∧ c8_b1.frontier = [⟨1, 0⟩] ∧
      c8_a2.frontier.length = 2 ∧ (⟨0, 0⟩ : ID) ∈ c8_a2.frontier ∧
      (⟨1, 0⟩ : ID) ∈ c8_a2.frontier ∧ c8_a3.frontier = [⟨0, 1⟩] ∧
      TestDag.get_common_ancestor c8_b3 ⟨0, 2⟩ ⟨1, 1⟩ = some ⟨1, 0⟩ := by
  decide

/-! ### Claim C3 -/

/-- A merge input whose single node depends on a replica the receiver
has never seen; its pending entry can never be admitted. -/
def bad_other : TestDag :=
  { nodes := [(1, [⟨⟨1, 0⟩, 0, 1, [⟨99, 0⟩]⟩])], frontier := [⟨1, 0⟩],
    version_vec := [(1, 1)], next_lamport := 1, client_id := 1 }

/-- C3 counterexample: merging `bad_other` into a fresh instance
buffers the entry `(1,0)`; the pending loop then reproduces the very
same configuration at every iteration, so the source's `merge` loops
forever on this input instead of detecting the no-progress fixpoint —
and `merge` has no error return at all, so no `InconsistentHistory` is
ever surfaced. -/
theorem C3_counterexample :
    mergeOuter (TestDag.new 0) [] bad_other.nodes =
      (TestDag.new 0, [(1, 0)]) ∧
    mergeLoopStep bad_other (TestDag.new 0) [(1, 0)] [] =
      .cont (TestDag.new 0) [] [(1, 0)] ∧
    mergeLoopStep bad_other (TestDag.new 0) [] [(1, 0)] =
      .cont (TestDag.new 0) [] [(1, 0)] := by decide

/-- C3 amended: the pending loop of `merge` does not detect a
no-progress pass.  Whenever scanning the single pending entry re-buffers
it with the state unchanged, one loop iteration maps the configuration
to a fixpoint that repeats forever; `merge` never returns (and has no
`InconsistentHistory` error).  Termination happens only when the
buffers empty. -/
theorem C3_no_progress_loops (other d : TestDag) (e : Nat × Nat)
    (h : mergeScan d [] (((alookup other.nodes e.1).getD []).drop e.2)
      e.2 = (d, [e])) :
    mergeLoopStep other d [e] [] = .cont d [] [e] ∧
    mergeLoopStep other d [] [e] = .cont d [] [e] := by
  constructor <;>
  · unfold mergeLoopStep
    simp [h]

theorem C3_no_progress_loops_witness :
    mergeScan (TestDag.new 0) []
        (((alookup bad_other.nodes 1).getD []).drop 0) 0 =
      (TestDag.new 0, [(1, 0)]) ∧
    (mergeLoopStep bad_other (TestDag.new 0) [(1, 0)] [] =
        .cont (TestDag.new 0) [] [(1, 0)] ∧
      mergeLoopStep bad_other (TestDag.new 0) [] [(1, 0)] =
        .cont (TestDag.new 0) [] [(1, 0)]) :=
  ⟨by decide,
    C3_no_progress_loops bad_other (TestDag.new 0) (1, 0) (by decide)⟩

/-! ### Claims C7 and C10 -/

/-- The gapless-partition property of one replica's node list, as
claimed: every counter below the version-vector entry lies in the span
of exactly one stored node, and no stored span extends past the
entry. -/
def GaplessAt (d : TestDag) (c : Nat) : Prop :=
  (∀ x v, vvGet d c = some v → x < v →
    ∃! n, n ∈ nodesOf d c ∧ n.id.counter ≤ x ∧ x < n.id.counter + n.len) ∧
  (∀ n ∈ nodesOf d c, ∀ v, vvGet d c = some v → n.id.counter + n.len ≤ v)

/-- C7: in every state reachable by pushes (`len ≥ 1`) and merges from
fresh instances, every replica's stored nodes form a gapless,
non-overlapping partition of `[0, version_vector[replica])`. -/
theorem C7_gapless_partition {s : List TestDag} (hs : Reach s) {i : Nat}
    (hi : i < s.length) (c : Nat) : GaplessAt (s.get ⟨i, hi⟩) c := by
  have wf := (reach_wf hs).wf i hi
  constructor
  · intro x v hv hx
    have hvs := wf.vv_ok c
    rw [hv] at hvs
    by_cases he : nodesOf (s.get ⟨i, hi⟩) c = []
    · rw [if_pos he] at hvs
      cases hvs
    · rw [if_neg he] at hvs
      have hveq : v = sumLens (nodesOf (s.get ⟨i, hi⟩) c) := by
        exact (Option.some_injective _ hvs.symm).symm
      obtain ⟨n, -, hmem, hb1, hb2⟩ :=
        chain_find_covers (x := x) (wf.chain c) (Nat.zero_le _)
          (by omega)
      refine ⟨n, ⟨hmem, hb1, hb2⟩, ?_⟩
      intro m hm
      exact chain_mem_unique (wf.chain c) hm.1 hmem ⟨hm.2.1, hm.2.2⟩
        ⟨hb1, hb2⟩
  · intro n hn v hv
    have hvs := wf.vv_ok c
    rw [hv] at hvs
    by_cases he : nodesOf (s.get ⟨i, hi⟩) c = []
    · rw [he] at hn
      cases hn
    · rw [if_neg he] at hvs
      have hveq : v = sumLens (nodesOf (s.get ⟨i, hi⟩) c) :=
        (Option.some_injective _ hvs.symm).symm
      have hb := chainFrom_mem (wf.chain c) hn
      omega

theorem C7_gapless_partition_witness :
    Reach ((initSystem 2).set 0 (((initSystem 2).get ⟨0, by decide⟩).push 2))
      ∧ GaplessAt
        (((initSystem 2).set 0
          (((initSystem 2).get ⟨0, by decide⟩).push 2)).get ⟨0, by decide⟩)
        0 :=
  ⟨Reach.step (Reach.init 2) (Step.push _ 0 2 (by decide) (by decide)),
    C7_gapless_partition
      (Reach.step (Reach.init 2) (Step.push _ 0 2 (by decide) (by decide)))
      (by decide) 0⟩

/-- The claimed agreement of `get` and `contains`: `get` finds a node
whose span contains the id exactly when `contains` holds, and returns
`None` exactly when it does not. -/
def GetMatches (d : TestDag) (id : ID) : Prop :=
  ((∃ n, d.get id = some n ∧ n.id.counter ≤ id.counter ∧
      id.counter < n.id.counter + n.len) ↔ d.contains id = true) ∧
  (d.get id = none ↔ d.contains id = false)

/-- C10: in every reachable state, `get(id)` returns some node whose
span contains `id` exactly when `contains(id)` is true, and `None`
exactly when `contains(id)` is false. -/
theorem C10_get_iff_contains {s : List TestDag} (hs : Reach s) {i : Nat}
    (hi : i < s.length) (id : ID) : GetMatches (s.get ⟨i, hi⟩) id := by
  have wf := (reach_wf hs).wf i hi
  constructor
  · constructor
    · rintro ⟨n, h1, -⟩
      exact contains_of_get wf h1
    · intro h
      obtain ⟨n, h1, -, h3, h4⟩ := get_of_contains wf h
      exact ⟨n, h1, h3, h4⟩
  · exact get_none_iff wf id

theorem C10_get_iff_contains_witness :
    Reach ((initSystem 2).set 0 (((initSystem 2).get ⟨0, by decide⟩).push 2))
      ∧ GetMatches
        (((initSystem 2).set 0
          (((initSystem 2).get ⟨0, by decide⟩).push 2)).get ⟨0, by decide⟩)
        ⟨0, 1⟩ :=
  ⟨Reach.step (Reach.init 2) (Step.push _ 0 2 (by decide) (by decide)),
    C10_get_iff_contains
      (Reach.step (Reach.init 2) (Step.push _ 0 2 (by decide) (by decide)))
      (by decide) ⟨0, 1⟩⟩

/-! ### Claim C6 -/

/-- C6 counterexample: replica 1 merges replica 0's first push and
then pushes; `roots()` then returns replica 1's first node, whose deps
are the nonempty list `[{0,0}]`, refuting "every node returned by
roots has empty deps". -/
theorem C6_counterexample :
    (⟨⟨1, 0⟩, 1, 1, [⟨0, 0⟩]⟩ : TestNode) ∈
      (((TestDag.new 1).merge ((TestDag.new 0).push 1)).push 1).roots ∧
    (⟨⟨1, 0⟩, 1, 1, [⟨0, 0⟩]⟩ : TestNode).deps ≠ ([] : List ID) := by
  decide

/-- C6 amended: `roots()` returns the first stored node of every
replica (always a counter-0 node); every stored node with empty deps is
among them, but a returned node may itself have nonempty deps. -/
theorem C6_roots_amended {s : List TestDag} (hs : Reach s) {i : Nat}
    (hi : i < s.length) :
    (∀ n ∈ allNodes (s.get ⟨i, hi⟩), n.deps = [] →
      n ∈ (s.get ⟨i, hi⟩).roots) ∧
    (∀ n ∈ (s.get ⟨i, hi⟩).roots, n.id.counter = 0) := by
  have wf := (reach_wf hs).wf i hi
  constructor
  · intro n hn hdeps
    have hmem := nodesOf_of_mem_allNodes wf.keys_nodup wf.keys_match hn
    obtain ⟨k, hk, hke⟩ := List.getElem_of_mem hmem
    have hk0 : k = 0 := by
      by_contra hk0
      obtain ⟨dep, hdep, -⟩ := wf.pred_reach n.id.clientId (k - 1)
        ((nodesOf (s.get ⟨i, hi⟩) n.id.clientId)[k - 1]) n
        (List.getElem?_eq_getElem (by omega))
        (by rw [show k - 1 + 1 = k by omega]
            rw [List.getElem?_eq_getElem hk, hke])
      rw [hdeps] at hdep
      cases hdep
    cases hl : alookup (s.get ⟨i, hi⟩).nodes n.id.clientId with
    | none =>
      rw [nodesOf, hl] at hmem
      cases hmem
    | some l =>
      refine List.mem_filterMap.2 ⟨(n.id.clientId, l), alookup_mem hl, ?_⟩
      have hll : nodesOf (s.get ⟨i, hi⟩) n.id.clientId = l := by
        rw [nodesOf, hl]
        rfl
      have hke? : (nodesOf (s.get ⟨i, hi⟩) n.id.clientId)[k]? = some n := by
        rw [List.getElem?_eq_getElem hk, hke]
      rw [hll] at hke?
      subst hk0
      show l.head? = some n
      cases l with
      | nil => simp at hke?
      | cons x xs =>
        simp at hke?
        simp [hke?]
  · intro n hn
    obtain ⟨p, hp, hph⟩ := List.mem_filterMap.1 hn
    cases hl : p.2 with
    | nil => rw [hl] at hph; cases hph
    | cons x xs =>
      rw [hl] at hph
      simp at hph
      have hll : nodesOf (s.get ⟨i, hi⟩) p.1 = x :: xs := by
        rw [nodesOf,
          mem_alookup_of_nodup wf.keys_nodup
            (show (p.1, x :: xs) ∈ (s.get ⟨i, hi⟩).nodes by
              rw [← hl]; simpa using hp)]
        rfl
      have hch := wf.chain p.1
      rw [hll] at hch
      obtain ⟨hid, -, -⟩ := hch
      rw [← hph, hid]

theorem C6_roots_amended_witness :
    Reach ((initSystem 2).set 0 (((initSystem 2).get ⟨0, by decide⟩).push 2))
      ∧ ((∀ n ∈ allNodes
          (((initSystem 2).set 0
            (((initSystem 2).get ⟨0, by decide⟩).push 2)).get
              ⟨0, by decide⟩), n.deps = [] →
          n ∈ (((initSystem 2).set 0
            (((initSystem 2).get ⟨0, by decide⟩).push 2)).get
              ⟨0, by decide⟩).roots) ∧
        (∀ n ∈ (((initSystem 2).set 0
            (((initSystem 2).get ⟨0, by decide⟩).push 2)).get
              ⟨0, by decide⟩).roots, n.id.counter = 0)) :=
  ⟨Reach.step (Reach.init 2) (Step.push _ 0 2 (by decide) (by decide)),
    C6_roots_amended
      (Reach.step (Reach.init 2) (Step.push _ 0 2 (by decide) (by decide)))
      (by decide)⟩

/-! ### Claim C9 -/

theorem mem_depNodes {d : TestDag} {a p : TestNode} :
    p ∈ depNodes d a ↔ ∃ dep ∈ a.deps, d.get dep = some p := by
  unfold depNodes
  rw [List.mem_filterMap]

theorem reachB_sound {d : TestDag} (wf : DagWF d) :
    ∀ fuel {a m : TestNode}, a ∈ allNodes d → reachB d fuel a m = true →
      m ∈ allNodes d ∧ m.lamport + m.len ≤ a.lamport + a.len := by
  intro fuel
  induction fuel with
  | zero =>
    intro a m ha h
    simp [reachB] at h
    rw [← h]
    exact ⟨ha, le_refl _⟩
  | succ f ih =>
    intro a m ha h
    simp only [reachB, Bool.or_eq_true] at h
    rcases h with h | h
    · simp at h
      rw [← h]
      exact ⟨ha, le_refl _⟩
    · rcases List.any_eq_true.1 h with ⟨p, hp, hr⟩
      obtain ⟨dep, hdep, hget⟩ := mem_depNodes.1 hp
      have hpm := get_mem_allNodes hget
      have hdom := wf.dep_dom a ha dep hdep p hget
      obtain ⟨hm, hl⟩ := ih hpm hr
      exact ⟨hm, by omega⟩

theorem lamportOf_eq {d : TestDag} {y : ID} {ny : TestNode}
    (h : d.get y = some ny) :
    lamportOf d y = ny.lamport + (y.counter - ny.id.counter) := by
  unfold lamportOf
  rw [h]

theorem get_client {d : TestDag} (wf : DagWF d) {y : ID} {ny : TestNode}
    (h : d.get y = some ny) : ny.id.clientId = y.clientId := by
  rw [get_eq_find] at h
  exact (chainFrom_mem (wf.chain y.clientId)
    (List.mem_of_find?_eq_some h)).1

/-- Soundness of the modelled ancestor test: any strict ancestor has a
strictly smaller lamport position. -/
theorem isAnc_lam {d : TestDag} (wf : DagWF d) {x y : ID}
    (h : isAncestorOf d x y = true) :
    y = x ∨ lamportOf d y < lamportOf d x := by
  unfold isAncestorOf at h
  cases hx : d.get x with
  | none => rw [hx] at h; cases h
  | some nx =>
    cases hy : d.get y with
    | none => rw [hx, hy] at h; cases h
    | some ny =>
      rw [hx, hy] at h
      simp only [Bool.or_eq_true, Bool.and_eq_true, beq_iff_eq,
        decide_eq_true_eq, Bool.not_eq_true'] at h
      rcases h with ⟨hnn, hle⟩ | ⟨hne, h⟩
      · subst hnn
        obtain ⟨hx1, -⟩ := get_covers hx
        obtain ⟨hy1, -⟩ := get_covers hy
        have hcx := get_client wf hx
        have hcy := get_client wf hy
        by_cases hyc : y.counter = x.counter
        · left
          have hcc : y.clientId = x.clientId := by rw [← hcy, hcx]
          cases y with
          | mk a b =>
            cases x with
            | mk a' b' =>
              simp at hyc hcc
              simp [hyc, hcc]
        · right
          rw [lamportOf_eq hx, lamportOf_eq hy]
          omega
      · right
        rcases List.any_eq_true.1 h with ⟨p, hp, hr⟩
        obtain ⟨dep, hdep, hget⟩ := mem_depNodes.1 hp
        have hnxm := get_mem_allNodes hx
        have hdom := wf.dep_dom nx hnxm dep hdep p hget
        obtain ⟨-, hl⟩ := reachB_sound wf _ (get_mem_allNodes hget) hr
        obtain ⟨hby1, hby2⟩ := get_covers hy
        obtain ⟨hbx1, hbx2⟩ := get_covers hx
        have hnylen : 1 ≤ ny.len :=
          (chainFrom_mem (wf.chain y.clientId)
            (get_some_mem_nodesOf hy)).2.1
        rw [lamportOf_eq hx, lamportOf_eq hy]
        omega

theorem isAnc_refl {d : TestDag} (wf : DagWF d) {x : ID}
    (hx : d.contains x = true) : isAncestorOf d x x = true := by
  obtain ⟨n, h1, -⟩ := get_of_contains wf hx
  unfold isAncestorOf
  rw [h1]
  simp

theorem mem_allIds {d : TestDag} {x : ID} (hx : d.contains x = true) :
    x ∈ allIds d := by
  unfold TestDag.contains at hx
  cases hv : vvGet d x.clientId with
  | none => rw [hv] at hx; cases hx
  | some v =>
    rw [hv] at hx
    simp at hx
    unfold allIds
    refine List.mem_flatten.2
      ⟨(List.range v).map fun k => (⟨x.clientId, k⟩ : ID),
        List.mem_map.2 ⟨(x.clientId, v), alookup_mem hv, rfl⟩, ?_⟩
    refine List.mem_map.2 ⟨x.counter, List.mem_range.2 hx, ?_⟩
    cases x
    rfl

theorem betterId_irrefl (d : TestDag) (a : ID) : betterId d a a = false := by
  simp [betterId]

theorem betterId_of_lt {d : TestDag} {a b : ID}
    (h : lamportOf d b < lamportOf d a) :
    betterId d a b = true ∧ betterId d b a = false := by
  unfold betterId
  constructor
  · simp [h]
  · simp
    omega

theorem foldl_pick_eq {d : TestDag} {x : ID} :
    ∀ (t : List ID) (b : ID),
      (∀ y, y ∈ b :: t → y ≠ x →
        betterId d x y = true ∧ betterId d y x = false) →
      (x = b ∨ x ∈ t) →
      t.foldl (fun best y => if betterId d y best then y else best) b = x := by
  intro t
  induction t with
  | nil =>
    intro b hall hx
    rcases hx with h | h
    · exact h.symm
    · cases h
  | cons y ys ih =>
    intro b hall hx
    simp only [List.foldl_cons]
    by_cases hby : betterId d y b = true
    · rw [if_pos hby]
      apply ih
      · intro z hz hzx
        rcases List.mem_cons.1 hz with h1 | h1
        · subst h1
          exact hall z (by simp) hzx
        · exact hall z (by simp [h1]) hzx
      · rcases hx with hb | hmem
        · by_cases hyx : y = x
          · exact Or.inl hyx.symm
          · obtain ⟨-, h2⟩ := hall y (by simp) hyx
            rw [← hb] at hby
            rw [h2] at hby
            cases hby
        · rcases List.mem_cons.1 hmem with h1 | h1
          · exact Or.inl h1
          · exact Or.inr h1
    · rw [if_neg hby]
      apply ih
      · intro z hz hzx
        rcases List.mem_cons.1 hz with h1 | h1
        · subst h1
          exact hall z (by simp) hzx
        · exact hall z (by simp [h1]) hzx
      · rcases hx with hb | hmem
        · exact Or.inl hb
        · rcases List.mem_cons.1 hmem with h1 | h1
          · by_cases hbx : b = x
            · exact Or.inl hbx.symm
            · obtain ⟨h2, -⟩ := hall b (by simp) hbx
              rw [← h1] at hby
              exact absurd h2 hby
          · exact Or.inr h1

/-- C9: in every reachable instance, `get_common_ancestor(x, x)`
returns `Some(x)` for every known id `x`. -/
theorem C9_gca_self {s : List TestDag} (hs : Reach s) {i : Nat}
    (hi : i < s.length) {x : ID}
    (hx : (s.get ⟨i, hi⟩).contains x = true) :
    (s.get ⟨i, hi⟩).get_common_ancestor x x = some x := by
  have wf := (reach_wf hs).wf i hi
  unfold TestDag.get_common_ancestor
  have hxc : x ∈ (allIds (s.get ⟨i, hi⟩)).filter
      (fun y => isAncestorOf (s.get ⟨i, hi⟩) x y &&
        isAncestorOf (s.get ⟨i, hi⟩) x y) := by
    rw [List.mem_filter]
    exact ⟨mem_allIds hx, by rw [isAnc_refl wf hx]; rfl⟩
  cases hc : (allIds (s.get ⟨i, hi⟩)).filter
      (fun y => isAncestorOf (s.get ⟨i, hi⟩) x y &&
        isAncestorOf (s.get ⟨i, hi⟩) x y) with
  | nil =>
    rw [hc] at hxc
    cases hxc
  | cons h t =>
    rw [hc] at hxc
    show some (t.foldl (fun best y =>
      if betterId (s.get ⟨i, hi⟩) y best then y else best) h) = some x
    congr 1
    apply foldl_pick_eq
    · intro y hy hyx
      have hyc : y ∈ (allIds (s.get ⟨i, hi⟩)).filter
          (fun y => isAncestorOf (s.get ⟨i, hi⟩) x y &&
            isAncestorOf (s.get ⟨i, hi⟩) x y) := by
        rw [hc]
        exact hy
      rw [List.mem_filter] at hyc
      have hanc : isAncestorOf (s.get ⟨i, hi⟩) x y = true := by
        have := hyc.2
        simp at this
        exact this
      rcases isAnc_lam wf hanc with he | hlt
      · exact absurd he hyx
      · exact betterId_of_lt hlt
    · exact List.mem_cons.1 hxc

theorem C9_gca_self_witness :
    Reach ((initSystem 2).set 0 (((initSystem 2).get ⟨0, by decide⟩).push 2))
      ∧ (((initSystem 2).set 0
          (((initSystem 2).get ⟨0, by decide⟩).push 2)).get
            ⟨0, by decide⟩).contains ⟨0, 1⟩ = true
      ∧ (((initSystem 2).set 0
          (((initSystem 2).get ⟨0, by decide⟩).push 2)).get
            ⟨0, by decide⟩).get_common_ancestor ⟨0, 1⟩ ⟨0, 1⟩ =
          some ⟨0, 1⟩ :=
  ⟨Reach.step (Reach.init 2) (Step.push _ 0 2 (by decide) (by decide)),
    by decide,
    C9_gca_self
      (Reach.step (Reach.init 2) (Step.push _ 0 2 (by decide) (by decide)))
      (by decide) (by decide)⟩

/-! ### Completeness of merge: preparation -/

theorem nreach_lam {d : TestDag} (wf : DagWF d) {a b : TestNode}
    (ha : a ∈ allNodes d) (h : NReach d a b) :
    b ∈ allNodes d ∧ b.lamport + b.len ≤ a.lamport + a.len := by
  induction h with
  | refl => exact ⟨ha, le_refl _⟩
  | tail hr hdep hget ih =>
    obtain ⟨hbm, hl⟩ := ih
    have := wf.dep_dom _ hbm _ hdep _ hget
    exact ⟨get_mem_allNodes hget, by omega⟩

theorem reach_ids_lam {d : TestDag} (wf : DagWF d) {ids : List ID}
    {m n : TestNode} (hn : n ∈ allNodes d) (hids : ids = n.deps)
    (h : ReachFromIds d ids m) : m.lamport + m.len ≤ n.lamport := by
  obtain ⟨dep, hdep, n₀, hget, hr⟩ := h
  subst hids
  have h1 := wf.dep_dom n hn dep hdep n₀ hget
  obtain ⟨-, h2⟩ := nreach_lam wf (get_mem_allNodes hget) hr
  omega

/-- Lamport values grow along one client's node list. -/
theorem chain_lam_mono {d : TestDag} (wf : DagWF d) (c : Nat) :
    ∀ (q2 q1 : Nat) (n m : TestNode), q1 < q2 →
      (nodesOf d c)[q1]? = some n → (nodesOf d c)[q2]? = some m →
      n.lamport + n.len ≤ m.lamport := by
  intro q2
  induction q2 with
  | zero =>
    intro q1 n m h
    omega
  | succ q ih =>
    intro q1 n m h h1 h2
    rcases List.getElem?_eq_some.1 h2 with ⟨hl2, -⟩
    by_cases hq : q1 = q
    · subst hq
      exact reach_ids_lam wf
        (mem_allNodes_of_nodesOf (by
          rcases List.getElem?_eq_some.1 h2 with ⟨hh, he⟩
          rw [← he]
          exact List.getElem_mem hh))
        rfl (wf.pred_reach c q1 n m h1 h2)
    · have hmid : ((nodesOf d c)[q]?).isSome := by
        rw [List.getElem?_eq_getElem (by omega)]
        rfl
      cases hm : (nodesOf d c)[q]? with
      | none => rw [hm] at hmid; cases hmid
      | some p =>
        have hstep := reach_ids_lam wf
          (mem_allNodes_of_nodesOf (by
            rcases List.getElem?_eq_some.1 h2 with ⟨hh, he⟩
            rw [← he]
            exact List.getElem_mem hh))
          rfl (wf.pred_reach c q p m hm h2)
        have hprev := ih q1 n p (by omega) h1 hm
        have hplen : 1 ≤ p.len := by
          rcases List.getElem?_eq_some.1 hm with ⟨hh, he⟩
          have hmem := List.getElem_mem hh
          rw [he] at hmem
          exact (chainFrom_mem (wf.chain c) hmem).2.1
        omega

theorem alookup_none_of_not_mem {α : Type} {l : List (Nat × α)} {k : Nat}
    (h : ∀ p ∈ l, p.1 ≠ k) : alookup l k = none := by
  induction l with
  | nil => rfl
  | cons p rest ih =>
    have h1 := h p (List.mem_cons_self _ _)
    simp [alookup, h1]
    exact ih fun q hq => h q (List.mem_cons_of_mem _ hq)

theorem nat_sum_zero {l : List Nat} (h : l.sum = 0) : ∀ x ∈ l, x = 0 := by
  induction l with
  | nil => intro x hx; cases hx
  | cons y ys ih =>
    rw [List.sum_cons] at h
    intro x hx
    rcases List.mem_cons.1 hx with h1 | h1
    · omega
    · exact ih (by omega) x h1

/-- Number of nodes of `other` not yet admitted into `M`. -/
def remCount (other M : TestDag) : Nat :=
  ((other.nodes.map Prod.fst).map fun c =>
    (nodesOf other c).length - (nodesOf M c).length).sum

theorem remCount_zero {other M : TestDag} (h : remCount other M = 0) :
    ∀ c, (nodesOf other c).length ≤ (nodesOf M c).length := by
  intro c
  by_cases hk : ∃ p ∈ other.nodes, p.1 = c
  · obtain ⟨p, hp, hpc⟩ := hk
    have hmem : ((nodesOf other c).length - (nodesOf M c).length) ∈
        ((other.nodes.map Prod.fst).map fun c =>
          (nodesOf other c).length - (nodesOf M c).length) :=
      List.mem_map.2 ⟨c, List.mem_map.2 ⟨p, hp, hpc⟩, rfl⟩
    have := nat_sum_zero h _ hmem
    omega
  · push_neg at hk
    have : alookup other.nodes c = none := alookup_none_of_not_mem hk
    rw [nodesOf, this]
    simp

theorem remCount_lt {other M M' : TestDag}
    (hle : ∀ c, (nodesOf M c).length ≤ (nodesOf M' c).length)
    (hex : ∃ p ∈ other.nodes, (nodesOf M p.1).length < (nodesOf M' p.1).length
      ∧ (nodesOf M p.1).length < (nodesOf other p.1).length) :
    remCount other M' < remCount other M := by
  unfold remCount
  rw [List.map_map, List.map_map]
  apply List.sum_lt_sum
  · intro p hp
    have h1 := hle p.1
    simp only [Function.comp_apply]
    omega
  · obtain ⟨p, hp, h1, h2⟩ := hex
    refine ⟨p, hp, ?_⟩
    simp only [Function.comp_apply]
    omega

theorem sumLens_take_lt {c : Nat} {l : List TestNode}
    (h : chainFrom c 0 l) {k : Nat} (hk : k < l.length) :
    sumLens (l.take k) < sumLens l := by
  conv_rhs => rw [← List.take_append_drop k l]
  rw [sumLens_append]
  rw [List.drop_eq_getElem_cons hk, sumLens_cons]
  have hmem := List.getElem_mem hk
  have := (chainFrom_mem h hmem).2.1
  omega

/-- Whether the node at position `k` of `other`'s list for client `c`
is contained in `M` is decided by the length of `M`'s list. -/
theorem contains_boundary {other M : TestDag} (wo : DagWF other)
    (wm : DagWF M) (hcm : Compat M other) {c k : Nat}
    (hk : k < (nodesOf other c).length) :
    (M.contains ((nodesOf other c)[k]).id = true ↔
      k < (nodesOf M c).length) := by
  have hid := chain_getElem (wo.chain c) hk
  have hcl : ((nodesOf other c)[k]).id.clientId = c := by rw [hid]
  have hct : ((nodesOf other c)[k]).id.counter =
      sumLens ((nodesOf other c).take k) := by rw [hid]; simp
  rw [contains_iff_sum wm, hcl, hct]
  rcases hcm c with hle | hle
  · have heq := ListLe_eq_take hle
    constructor
    · intro h
      by_contra hkk
      have hmono := sumLens_take_mono (nodesOf other c)
        (show (nodesOf M c).length ≤ k by omega)
      rw [← heq] at hmono
      omega
    · intro h
      have htt : (nodesOf other c).take k = (nodesOf M c).take k := by
        rw [heq, List.take_take, Nat.min_eq_left (by omega)]
      rw [htt]
      exact sumLens_take_lt (chainFrom_of_ListLe hle (wo.chain c)) h
  · have heq := ListLe_eq_take hle
    have hlen := ListLe_length hle
    have htt : (nodesOf other c).take k = (nodesOf M c).take k := by
      rw [heq, List.take_take, Nat.min_eq_left (by omega)]
    constructor
    · intro _
      omega
    · intro _
      rw [htt]
      exact sumLens_take_lt (wm.chain c) (by omega)

/-- Full characterization of one scan of `other`'s list for client `c`
from index `k ≤ |M.c|`: the state grows only at `c`, and the scan
either finishes the client or buffers exactly one entry pointing at the
first node whose deps are not yet satisfied. -/
theorem scan_spec {A other : TestDag} (wo : DagWF other)
    (hco : Compat A other) (c : Nat) :
    ∀ (fuelN : Nat) (M : TestDag) (pending : List (Nat × Nat)) (k : Nat),
      MInv A other M → k ≤ (nodesOf M c).length →
      fuelN = (nodesOf other c).length - k →
      MInv A other (mergeScan M pending ((nodesOf other c).drop k) k).1 ∧
      (∀ c', c' ≠ c →
        nodesOf (mergeScan M pending ((nodesOf other c).drop k) k).1 c' =
          nodesOf M c') ∧
      (nodesOf M c).length ≤
        (nodesOf (mergeScan M pending ((nodesOf other c).drop k) k).1
          c).length ∧
      ((mergeScan M pending ((nodesOf other c).drop k) k).2 = pending ∧
          (nodesOf other c).length ≤
            (nodesOf (mergeScan M pending ((nodesOf other c).drop k) k).1
              c).length
        ∨ ∃ k' n,
            (mergeScan M pending ((nodesOf other c).drop k) k).2 =
              pending ++ [(c, k')] ∧
            k' = (nodesOf
              (mergeScan M pending ((nodesOf other c).drop k) k).1 c).length ∧
            (nodesOf other c)[k']? = some n ∧
            ∃ dep ∈ n.deps,
              (mergeScan M pending ((nodesOf other c).drop k) k).1.contains
                dep = false) ∧
      ((mergeScan M pending ((nodesOf other c).drop k) k).1 = M ∨
        (nodesOf M c).length <
            (nodesOf (mergeScan M pending ((nodesOf other c).drop k) k).1
              c).length ∧
          (nodesOf M c).length < (nodesOf other c).length) := by
  intro fuelN
  induction fuelN with
  | zero =>
    intro M pending k hI hk hf
    have hdrop : (nodesOf other c).drop k = [] :=
      List.drop_eq_nil_of_le (by omega)
    rw [hdrop]
    refine ⟨hI, fun c' _ => rfl, le_refl _, Or.inl ⟨rfl, ?_⟩, Or.inl rfl⟩
    show (nodesOf other c).length ≤ (nodesOf M c).length
    omega
  | succ fN ih =>
    intro M pending k hI hk hf
    have hklt : k < (nodesOf other c).length := by omega
    rw [List.drop_eq_getElem_cons hklt]
    have wm := hI.1
    have hcm : Compat M other := hI.2.1
    have hcl : ((nodesOf other c)[k]).id.clientId = c := by
      rw [chain_getElem (wo.chain c) hklt]
    rcases tryPushNode_cases M ((nodesOf other c)[k]) pending k with
      ⟨hcon, he⟩ | ⟨hcon, hdep, he⟩ | ⟨hcon, hdep, he⟩
    · -- already contained: k < |M.c|, keep scanning
      have hkM : k < (nodesOf M c).length :=
        (contains_boundary wo wm hcm hklt).1 hcon
      have hres : mergeScan M pending
          (((nodesOf other c)[k]) :: (nodesOf other c).drop (k + 1)) k =
          mergeScan M pending ((nodesOf other c).drop (k + 1)) (k + 1) := by
        simp only [mergeScan, he]
      rw [hres]
      exact ih M pending (k + 1) hI (by omega) (by omega)
    · -- unsatisfied dep: buffered, scan stops
      have hkM : ¬ k < (nodesOf M c).length := by
        intro hlt
        rw [(contains_boundary wo wm hcm hklt).2 hlt] at hcon
        cases hcon
      have hkeq : k = (nodesOf M c).length := by omega
      have hres : mergeScan M pending
          (((nodesOf other c)[k]) :: (nodesOf other c).drop (k + 1)) k =
          (M, pending ++ [(((nodesOf other c)[k]).id.clientId, k)]) := by
        simp only [mergeScan, he]
      rw [hres]
      refine ⟨hI, fun c' _ => rfl, le_refl _, Or.inr
        ⟨k, (nodesOf other c)[k], ?_, hkeq, ?_, ?_⟩, Or.inl rfl⟩
      · rw [hcl]
      · rw [List.getElem?_eq_getElem hklt]
      · obtain ⟨dep, h1, h2⟩ := hdep
        exact ⟨dep, h1, h2⟩
    · -- admitted: state grows at c, keep scanning
      have hkM : ¬ k < (nodesOf M c).length := by
        intro hlt
        rw [(contains_boundary wo wm hcm hklt).2 hlt] at hcon
        cases hcon
      have hkeq : k = (nodesOf M c).length := by omega
      have hmemo : ((nodesOf other c)[k]) ∈
          nodesOf other ((nodesOf other c)[k]).id.clientId := by
        rw [hcl]
        exact List.getElem_mem hklt
      have hI' := admit_minv wo hco hI hmemo hcon hdep
      have hlen' : (nodesOf (admitNode M ((nodesOf other c)[k])) c).length
          = (nodesOf M c).length + 1 := by
        have hself := nodesOf_admit_self M ((nodesOf other c)[k])
        rw [hcl] at hself
        rw [hself]
        simp
      have hres : mergeScan M pending
          (((nodesOf other c)[k]) :: (nodesOf other c).drop (k + 1)) k =
          mergeScan (admitNode M ((nodesOf other c)[k])) pending
            ((nodesOf other c).drop (k + 1)) (k + 1) := by
        simp only [mergeScan, he]
      rw [hres]
      obtain ⟨a1, a2, a3, a4, a5⟩ :=
        ih (admitNode M ((nodesOf other c)[k]))
          pending (k + 1) hI' (by omega) (by omega)
      refine ⟨a1, ?_, by omega, a4, Or.inr ⟨by omega, by omega⟩⟩
      intro c' hc'
      rw [a2 c' hc']
      exact nodesOf_admit_ne _ _ _ (by rw [hcl]; exact hc')

theorem key_of_nodesOf_ne {d : TestDag} {c : Nat}
    (h : nodesOf d c ≠ []) : c ∈ d.nodes.map Prod.fst := by
  by_contra hk
  have hnone : alookup d.nodes c = none := by
    apply alookup_none_of_not_mem
    intro p hp he
    exact hk (List.mem_map.2 ⟨p, hp, he⟩)
  rw [nodesOf, hnone] at h
  simp at h

theorem remCount_pos {other M : TestDag} (h : remCount other M ≠ 0) :
    ∃ p ∈ other.nodes,
      (nodesOf M p.1).length < (nodesOf other p.1).length := by
  by_contra hc
  push_neg at hc
  apply h
  unfold remCount
  apply List.sum_eq_zero
  intro x hx
  rcases List.mem_map.1 hx with ⟨c, hcm, he⟩
  rcases List.mem_map.1 hcm with ⟨p, hp, hpc⟩
  subst hpc
  have := hc p hp
  omega

theorem remCount_mono {other M M' : TestDag}
    (h : ∀ c, (nodesOf M c).length ≤ (nodesOf M' c).length) :
    remCount other M' ≤ remCount other M := by
  unfold remCount
  rw [List.map_map, List.map_map]
  apply List.sum_le_sum
  intro p _
  simp only [Function.comp_apply]
  have := h p.1
  omega

theorem remCount_le_allNodes (other M : TestDag) (wo : DagWF other) :
    remCount other M ≤ (allNodes other).length := by
  unfold remCount allNodes
  rw [List.length_flatten, List.map_map, List.map_map]
  apply List.sum_le_sum
  intro p hp
  simp only [Function.comp_apply]
  have : nodesOf other p.1 = p.2 := by
    rw [nodesOf, mem_alookup_of_nodup wo.keys_nodup
      (show (p.1, p.2) ∈ other.nodes by simpa using hp)]
    rfl
  rw [this]
  omega

theorem list_exists_min (f : Nat → Nat) :
    ∀ l : List Nat, l ≠ [] → ∃ a ∈ l, ∀ b ∈ l, f a ≤ f b := by
  intro l
  induction l with
  | nil => intro h; cases h rfl
  | cons x rest ih =>
    intro _
    cases rest with
    | nil =>
      refine ⟨x, List.mem_cons_self _ _, ?_⟩
      intro b hb
      rcases List.mem_cons.1 hb with h | h
      · rw [h]
      · cases h
    | cons y t =>
      obtain ⟨a, ha, hmin⟩ := ih (by simp)
      by_cases hxa : f x ≤ f a
      · refine ⟨x, List.mem_cons_self _ _, ?_⟩
        intro b hb
        rcases List.mem_cons.1 hb with h | h
        · rw [h]
        · exact le_trans hxa (hmin b h)
      · refine ⟨a, List.mem_cons_of_mem _ ha, ?_⟩
        intro b hb
        rcases List.mem_cons.1 hb with h | h
        · rw [h]; omega
        · exact hmin b h

/-- An entry of the pending queues: its client is a stored key of
`other` and its index does not pass the merged state's list. -/
def EntryOK (other M : TestDag) (e : Nat × Nat) : Prop :=
  e.1 ∈ other.nodes.map Prod.fst ∧ e.2 ≤ (nodesOf M e.1).length

/-- The invariant of the pending loop of `TestDag::merge`: the state
satisfies `MInv`, every queued entry is well formed, queued clients are
distinct, and every client with missing nodes has a queued entry. -/
def LoopInv (A other M : TestDag) (cur pend : List (Nat × Nat)) : Prop :=
  MInv A other M ∧
  (∀ e ∈ cur ++ pend, EntryOK other M e) ∧
  ((cur ++ pend).map Prod.fst).Nodup ∧
  (∀ c, (nodesOf M c).length < (nodesOf other c).length →
    ∃ e ∈ cur ++ pend, e.1 = c)

/-- A client whose first missing node has all its deps already
contained, so that scanning that client admits at least one node. -/
def Admissible (other M : TestDag) (c : Nat) : Prop :=
  (nodesOf M c).length < (nodesOf other c).length ∧
  ∀ n, (nodesOf other c)[(nodesOf M c).length]? = some n →
    ∀ dep ∈ n.deps, M.contains dep = true

/-- Distance (in loop iterations) until the entry of client `c` is
popped: the suffix length when it sits in `current`, and twice the
length of `current` plus the suffix length when it sits in the other
queue. -/
def TDist (cur pend : List (Nat × Nat)) (c d : Nat) : Prop :=
  (∃ e l₁ l₂, cur = l₁ ++ e :: l₂ ∧ e.1 = c ∧ l₂.length ≤ d) ∨
  (∃ e l₁ l₂, pend = l₁ ++ e :: l₂ ∧ e.1 = c ∧
    2 * cur.length + l₂.length ≤ d)

theorem tdist_of_mem {cur pend : List (Nat × Nat)} {c : Nat}
    {e : Nat × Nat} (hm : e ∈ cur ++ pend) (hc : e.1 = c) :
    TDist cur pend c (2 * cur.length + pend.length) := by
  rcases List.mem_append.1 hm with h | h
  · obtain ⟨l₁, l₂, he⟩ := List.append_of_mem h
    left
    refine ⟨e, l₁, l₂, he, hc, ?_⟩
    have := congrArg List.length he
    simp at this
    omega
  · obtain ⟨l₁, l₂, he⟩ := List.append_of_mem h
    right
    refine ⟨e, l₁, l₂, he, hc, ?_⟩
    have := congrArg List.length he
    simp at this
    omega

theorem entries_le_keys {other M : TestDag} {l : List (Nat × Nat)}
    (hok : ∀ e ∈ l, EntryOK other M e) (hnd : (l.map Prod.fst).Nodup) :
    l.length ≤ other.nodes.length := by
  have hsub : l.map Prod.fst ⊆ other.nodes.map Prod.fst := by
    intro c hcm
    rcases List.mem_map.1 hcm with ⟨e, he, hec⟩
    rw [← hec]
    exact (hok e he).1
  have := (hnd.subperm hsub).length_le
  simpa using this

theorem sumLens_take_succ {l : List TestNode} {i : Nat}
    (hi : i < l.length) :
    sumLens (l.take (i + 1)) = sumLens (l.take i) + l[i].len := by
  rw [List.take_succ, List.getElem?_eq_getElem hi, sumLens_append]
  rw [Option.toList_some, sumLens_cons, sumLens_nil]
  omega

/-- When nodes are still missing, the missing node of smallest lamport
has all its deps contained, so its client's scan makes progress. -/
theorem merge_progress {A other M : TestDag} (wo : DagWF other)
    (hI : MInv A other M) (h : remCount other M ≠ 0) :
    ∃ c, Admissible other M c := by
  have wm := hI.1
  have hcm : Compat M other := hI.2.1
  obtain ⟨p, hp, hpmiss⟩ := remCount_pos h
  have hne : ((other.nodes.map Prod.fst).filter (fun c =>
      decide ((nodesOf M c).length < (nodesOf other c).length))) ≠ [] := by
    apply List.ne_nil_of_mem (a := p.1)
    exact List.mem_filter.2 ⟨List.mem_map.2 ⟨p, hp, rfl⟩, by
      simpa using hpmiss⟩
  obtain ⟨c, hcL, hmin⟩ := list_exists_min
    (fun c => (((nodesOf other c)[(nodesOf M c).length]?).map
      TestNode.lamport).getD 0) _ hne
  have hmiss : (nodesOf M c).length < (nodesOf other c).length := by
    have := (List.mem_filter.1 hcL).2
    simpa using this
  refine ⟨c, hmiss, ?_⟩
  intro n hn dep hdep
  cases hcd : M.contains dep with
  | true => rfl
  | false =>
    exfalso
    have hnmem : n ∈ nodesOf other c := by
      rcases List.getElem?_eq_some.1 hn with ⟨hh, he⟩
      rw [← he]
      exact List.getElem_mem hh
    have n_allN : n ∈ allNodes other := mem_allNodes_of_nodesOf hnmem
    have hoc : other.contains dep = true := wo.closure n n_allN dep hdep
    obtain ⟨n₀, hget, hn₀mem, hcov1, hcov2⟩ := get_of_contains wo hoc
    obtain ⟨i₀, hi₀, hgetel⟩ := List.getElem_of_mem hn₀mem
    have hstart : n₀.id.counter =
        sumLens ((nodesOf other dep.clientId).take i₀) := by
      rw [← hgetel, chain_getElem (wo.chain dep.clientId) hi₀]
      simp
    have hMle : sumLens (nodesOf M dep.clientId) ≤ dep.counter := by
      have := contains_iff_sum wm dep
      rw [hcd] at this
      simp at this
      omega
    rcases hcm dep.clientId with hMo | hoM
    · -- M's list is below other's
      have hMlen : (nodesOf M dep.clientId).length ≤
          (nodesOf other dep.clientId).length := ListLe_length hMo
      have hMsum : sumLens (nodesOf M dep.clientId) =
          sumLens ((nodesOf other dep.clientId).take
            (nodesOf M dep.clientId).length) := by
        conv_lhs => rw [ListLe_eq_take hMo]
      have hle : (nodesOf M dep.clientId).length ≤ i₀ := by
        by_contra hlt
        have hsucc : i₀ + 1 ≤ (nodesOf M dep.clientId).length := by omega
        have h1 := sumLens_take_mono (nodesOf other dep.clientId) hsucc
        have h2 := sumLens_take_succ hi₀
        rw [hgetel] at h2
        omega
      have hmiss' : (nodesOf M dep.clientId).length <
          (nodesOf other dep.clientId).length := by omega
      have hkey : dep.clientId ∈ other.nodes.map Prod.fst :=
        key_of_nodesOf_ne (List.ne_nil_of_mem hn₀mem)
      have hcL' : dep.clientId ∈ (other.nodes.map Prod.fst).filter
          (fun c => decide ((nodesOf M c).length <
            (nodesOf other c).length)) :=
        List.mem_filter.2 ⟨hkey, by simpa using hmiss'⟩
      have hminc := hmin dep.clientId hcL'
      have hn' : (nodesOf other dep.clientId)[(nodesOf M
          dep.clientId).length]? =
          some ((nodesOf other dep.clientId)[(nodesOf M
            dep.clientId).length]) :=
        List.getElem?_eq_getElem hmiss'
      rw [hn, hn'] at hminc
      simp at hminc
      have hlam' : ((nodesOf other dep.clientId)[(nodesOf M
          dep.clientId).length]).lamport ≤ n₀.lamport := by
        rcases Nat.lt_or_ge (nodesOf M dep.clientId).length i₀ with hlt | hge
        · have := chain_lam_mono wo dep.clientId i₀
            (nodesOf M dep.clientId).length _ n₀ hlt hn'
            (by rw [List.getElem?_eq_getElem hi₀, hgetel])
          omega
        · have hieq : (nodesOf M dep.clientId).length = i₀ := by omega
          have : (nodesOf other dep.clientId)[(nodesOf M
              dep.clientId).length] = n₀ := by
            rw [← hgetel]
            congr 1
          rw [this]
      have hdom := wo.dep_dom n n_allN dep hdep n₀ hget
      have hlen₀ : 1 ≤ n₀.len := (chainFrom_mem (wo.chain _) hn₀mem).2.1
      omega
    · -- other's list is below M's: dep would already be contained
      have h1 := ListLe_sumLens hoM
      have h2 := (contains_iff_sum wo dep).1 hoc
      omega

/-- Characterization of the first pass of `TestDag::merge`: after the
outer loop the state satisfies `MInv`, buffered entries are well
formed with pairwise-distinct clients, and every client with missing
nodes has a buffered entry. -/
theorem outer_spec {A other : TestDag} (wo : DagWF other)
    (hco : Compat A other) :
    ∀ (es dn : List (Nat × List TestNode)) (M : TestDag)
      (pending : List (Nat × Nat)),
      other.nodes = dn ++ es →
      MInv A other M →
      (∀ e ∈ pending, EntryOK other M e) →
      (pending.map Prod.fst).Nodup →
      (∀ e ∈ pending, ∀ p ∈ es, e.1 ≠ p.1) →
      (∀ c, (nodesOf M c).length < (nodesOf other c).length →
        (∃ e ∈ pending, e.1 = c) ∨ (∃ p ∈ es, p.1 = c)) →
      MInv A other (mergeOuter M pending es).1 ∧
      (∀ e ∈ (mergeOuter M pending es).2,
        EntryOK other (mergeOuter M pending es).1 e) ∧
      ((mergeOuter M pending es).2.map Prod.fst).Nodup ∧
      (∀ c, (nodesOf (mergeOuter M pending es).1 c).length <
          (nodesOf other c).length →
        ∃ e ∈ (mergeOuter M pending es).2, e.1 = c) := by
  intro es
  induction es with
  | nil =>
    intro dn M pending _ hI hok hnd _ hcov
    refine ⟨hI, hok, hnd, ?_⟩
    intro c hm
    rcases hcov c hm with h | h
    · exact h
    · obtain ⟨p, hp, -⟩ := h
      cases hp
  | cons pv rest ih =>
    intro dn M pending hsplit hI hok hnd hdisj hcov
    obtain ⟨c₀, vec⟩ := pv
    have hmemp : (c₀, vec) ∈ other.nodes := by
      rw [hsplit]
      simp
    have hvec : nodesOf other c₀ = vec := by
      rw [nodesOf, mem_alookup_of_nodup wo.keys_nodup hmemp]
      rfl
    have hveq : vec = (nodesOf other c₀).drop 0 := by
      rw [List.drop_zero, hvec]
    have hc₀rest : ∀ p ∈ rest, c₀ ≠ p.1 := by
      have hnodup := wo.keys_nodup
      rw [hsplit] at hnodup
      simp only [List.map_append, List.map_cons] at hnodup
      have h2 := hnodup.of_append_right
      rw [List.nodup_cons] at h2
      intro p hp he
      exact h2.1 (List.mem_map.2 ⟨p, hp, he.symm⟩)
    simp only [mergeOuter]
    rw [hveq]
    obtain ⟨sc1, sc2, sc3, sc4, sc5⟩ := scan_spec wo hco c₀
      ((nodesOf other c₀).length - 0) M pending 0 hI (Nat.zero_le _) rfl
    have hgrow_all : ∀ c, (nodesOf M c).length ≤
        (nodesOf (mergeScan M pending ((nodesOf other c₀).drop 0) 0).1
          c).length := by
      intro c
      by_cases hc : c = c₀
      · subst hc; exact sc3
      · rw [sc2 c hc]
    apply ih (dn ++ [(c₀, vec)])
      (mergeScan M pending ((nodesOf other c₀).drop 0) 0).1
      (mergeScan M pending ((nodesOf other c₀).drop 0) 0).2
    · rw [hsplit]
      simp
    · exact sc1
    · intro e he
      rcases sc4 with ⟨hpe, -⟩ | ⟨k', n, hpe, hk', -, -⟩
      · rw [hpe] at he
        obtain ⟨h1, h2⟩ := hok e he
        exact ⟨h1, le_trans h2 (hgrow_all e.1)⟩
      · rw [hpe] at he
        rcases List.mem_append.1 he with h | h
        · obtain ⟨h1, h2⟩ := hok e h
          exact ⟨h1, le_trans h2 (hgrow_all e.1)⟩
        · have he' : e = (c₀, k') := by simpa using h
          subst he'
          exact ⟨List.mem_map.2 ⟨(c₀, vec), hmemp, rfl⟩, by rw [hk']⟩
    · rcases sc4 with ⟨hpe, -⟩ | ⟨k', n, hpe, -, -, -⟩
      · rw [hpe]
        exact hnd
      · rw [hpe]
        have hperm : ((pending ++ [(c₀, k')]).map Prod.fst).Perm
            (c₀ :: pending.map Prod.fst) := by
          rw [List.map_append]
          exact List.perm_append_singleton c₀ (pending.map Prod.fst)
        apply hperm.symm.nodup
        rw [List.nodup_cons]
        refine ⟨?_, hnd⟩
        intro hmem
        rcases List.mem_map.1 hmem with ⟨e, he, hec⟩
        exact hdisj e he (c₀, vec) (List.mem_cons_self _ _) hec
    · intro e he p hp
      rcases sc4 with ⟨hpe, -⟩ | ⟨k', n, hpe, -, -, -⟩
      · rw [hpe] at he
        exact hdisj e he p (List.mem_cons_of_mem _ hp)
      · rw [hpe] at he
        rcases List.mem_append.1 he with h | h
        · exact hdisj e h p (List.mem_cons_of_mem _ hp)
        · have he' : e = (c₀, k') := by simpa using h
          subst he'
          exact hc₀rest p hp
    · intro c hm
      by_cases hc : c = c₀
      · subst hc
        rcases sc4 with ⟨-, hall⟩ | ⟨k', n, hpe, -, -, -⟩
        · omega
        · refine Or.inl ⟨(c, k'), ?_, rfl⟩
          rw [hpe]
          simp
      · rw [sc2 c hc] at hm
        rcases hcov c hm with ⟨e, he, hec⟩ | ⟨p, hp, hpc⟩
        · refine Or.inl ⟨e, ?_, hec⟩
          rcases sc4 with ⟨hpe, -⟩ | ⟨k', n, hpe, -, -, -⟩
          · rw [hpe]; exact he
          · rw [hpe]; exact List.mem_append_left _ he
        · rcases List.mem_cons.1 hp with h | h
          · rw [h] at hpc
            exact absurd hpc.symm hc
          · exact Or.inr ⟨p, h, hpc⟩

theorem concat_eq_concat {α : Type} {q l₁ : List α} {e t : α}
    (h : q ++ [e] = l₁ ++ [t]) : q = l₁ ∧ e = t := by
  have := List.append_inj' h rfl
  refine ⟨this.1, ?_⟩
  have h2 := this.2
  simpa using h2

theorem split_concat {α : Type} {q l₁ l₂ : List α} {e t : α}
    (h : q ++ [e] = l₁ ++ t :: l₂) (hne : t ≠ e) :
    l₂ ≠ [] ∧ q = l₁ ++ t :: l₂.dropLast := by
  have hne₂ : l₂ ≠ [] := by
    intro h0
    rw [h0] at h
    exact hne ((concat_eq_concat h).2).symm
  refine ⟨hne₂, ?_⟩
  have hdec : l₂.dropLast ++ [l₂.getLast hne₂] = l₂ :=
    List.dropLast_append_getLast hne₂
  rw [← hdec] at h
  have h' : q ++ [e] = (l₁ ++ t :: l₂.dropLast) ++ [l₂.getLast hne₂] := by
    rw [h]
    simp
  exact (concat_eq_concat h').1

theorem tdist_step_pop {q pend : List (Nat × Nat)} {e : Nat × Nat}
    {c₀ dd : Nat} (htd : TDist (q ++ [e]) pend c₀ dd) (hne : e.1 ≠ c₀) :
    1 ≤ dd ∧ TDist q pend c₀ (dd - 1) ∧
      ∀ x : Nat × Nat, TDist q (pend ++ [x]) c₀ (dd - 1) := by
  rcases htd with ⟨t, l₁, l₂, hqe, htc, hl₂⟩ | ⟨t, l₁, l₂, hpe, htc, hb⟩
  · have hte : t ≠ e := by
      intro h
      rw [h] at htc
      exact hne htc
    obtain ⟨hl₂ne, hq⟩ := split_concat hqe hte
    have hlen : l₂.dropLast.length = l₂.length - 1 := by simp
    have hpos : 1 ≤ l₂.length := by
      cases l₂ with
      | nil => cases hl₂ne rfl
      | cons _ _ => simp
    refine ⟨by omega, ?_, ?_⟩
    · exact Or.inl ⟨t, l₁, l₂.dropLast, hq, htc, by omega⟩
    · intro x
      exact Or.inl ⟨t, l₁, l₂.dropLast, hq, htc, by omega⟩
  · have hlq : (q ++ [e]).length = q.length + 1 := by simp
    refine ⟨by omega, ?_, ?_⟩
    · exact Or.inr ⟨t, l₁, l₂, hpe, htc, by omega⟩
    · intro x
      refine Or.inr ⟨t, l₁, l₂ ++ [x], by rw [hpe]; simp, htc, ?_⟩
      have : (l₂ ++ [x]).length = l₂.length + 1 := by simp
      omega

theorem tdist_step_swap {qp : List (Nat × Nat)} {e : Nat × Nat}
    {c₀ dd : Nat} (htd : TDist [] (qp ++ [e]) c₀ dd) (hne : e.1 ≠ c₀) :
    1 ≤ dd ∧ ∀ pend' : List (Nat × Nat), TDist qp pend' c₀ (dd - 1) := by
  rcases htd with ⟨t, l₁, l₂, hqe, -, -⟩ | ⟨t, l₁, l₂, hpe, htc, hb⟩
  · exact absurd hqe (by simp)
  · have hte : t ≠ e := by
      intro h
      rw [h] at htc
      exact hne htc
    obtain ⟨hl₂ne, hq⟩ := split_concat hpe hte
    have hlen : l₂.dropLast.length = l₂.length - 1 := by simp
    have hpos : 1 ≤ l₂.length := by
      cases l₂ with
      | nil => cases hl₂ne rfl
      | cons _ _ => simp
    refine ⟨by omega, ?_⟩
    intro pend'
    exact Or.inl ⟨t, l₁, l₂.dropLast, hq, htc, by omega⟩

/-- Effect of popping one entry `e` of the pending loop: the queue
invariant is preserved, the state only grows, the buffer gains at most
the re-buffered entry of the same client, a pop never changes the
state when nothing is missing, and popping an admissible client's
entry admits at least one node. -/
theorem pop_step_inv {A other M : TestDag} (wo : DagWF other)
    (hco : Compat A other) {q base : List (Nat × Nat)} {e : Nat × Nat}
    (hI : MInv A other M)
    (hok : ∀ x ∈ q ++ e :: base, EntryOK other M x)
    (hnd : ((q ++ e :: base).map Prod.fst).Nodup)
    (hcov : ∀ c, (nodesOf M c).length < (nodesOf other c).length →
      ∃ x ∈ q ++ e :: base, x.1 = c) :
    LoopInv A other
      (mergeScan M base ((nodesOf other e.1).drop e.2) e.2).1 q
      (mergeScan M base ((nodesOf other e.1).drop e.2) e.2).2 ∧
    (∀ c, (nodesOf M c).length ≤
      (nodesOf (mergeScan M base ((nodesOf other e.1).drop e.2) e.2).1
        c).length) ∧
    ((mergeScan M base ((nodesOf other e.1).drop e.2) e.2).2 = base ∨
      ∃ k', (mergeScan M base ((nodesOf other e.1).drop e.2) e.2).2 =
        base ++ [(e.1, k')]) ∧
    ((mergeScan M base ((nodesOf other e.1).drop e.2) e.2).1 = M ∨
      (nodesOf M e.1).length <
          (nodesOf (mergeScan M base ((nodesOf other e.1).drop e.2)
            e.2).1 e.1).length ∧
        (nodesOf M e.1).length < (nodesOf other e.1).length) ∧
    (remCount other M = 0 →
      (mergeScan M base ((nodesOf other e.1).drop e.2) e.2).1 = M ∧
      (mergeScan M base ((nodesOf other e.1).drop e.2) e.2).2 = base) ∧
    (∀ c₀, Admissible other M c₀ → e.1 = c₀ →
      (nodesOf M c₀).length <
        (nodesOf (mergeScan M base ((nodesOf other e.1).drop e.2)
          e.2).1 c₀).length) := by
  have hEe : EntryOK other M e := hok e (by simp)
  obtain ⟨sc1, sc2, sc3, sc4, sc5⟩ := scan_spec wo hco e.1
    ((nodesOf other e.1).length - e.2) M base e.2 hI hEe.2 rfl
  have hgrow_all : ∀ c, (nodesOf M c).length ≤
      (nodesOf (mergeScan M base ((nodesOf other e.1).drop e.2) e.2).1
        c).length := by
    intro c
    by_cases hc : c = e.1
    · subst hc; exact sc3
    · rw [sc2 c hc]
  have hM0 : remCount other M = 0 →
      (mergeScan M base ((nodesOf other e.1).drop e.2) e.2).1 = M ∧
      (mergeScan M base ((nodesOf other e.1).drop e.2) e.2).2 = base := by
    intro h0
    have hall := remCount_zero h0
    have hM : (mergeScan M base ((nodesOf other e.1).drop e.2) e.2).1
        = M := by
      rcases sc5 with h | ⟨-, h2⟩
      · exact h
      · have := hall e.1
        omega
    refine ⟨hM, ?_⟩
    rcases sc4 with ⟨h, -⟩ | ⟨k', n, -, hk', hget, -⟩
    · exact h
    · exfalso
      rw [hM] at hk'
      rcases List.getElem?_eq_some.1 hget with ⟨hh, -⟩
      have := hall e.1
      omega
  refine ⟨⟨sc1, ?_, ?_, ?_⟩, hgrow_all, ?_, sc5, hM0, ?_⟩
  · -- entries of the new queues are well formed
    intro x hx
    rcases sc4 with ⟨hpe, -⟩ | ⟨k', n, hpe, hk', -, -⟩
    · rw [hpe] at hx
      have hx' : x ∈ q ++ e :: base := by
        rcases List.mem_append.1 hx with h | h
        · exact List.mem_append_left _ h
        · exact List.mem_append_right _ (List.mem_cons_of_mem _ h)
      obtain ⟨h1, h2⟩ := hok x hx'
      exact ⟨h1, le_trans h2 (hgrow_all x.1)⟩
    · rw [hpe] at hx
      rcases List.mem_append.1 hx with h | h
      · obtain ⟨h1, h2⟩ := hok x (List.mem_append_left _ h)
        exact ⟨h1, le_trans h2 (hgrow_all x.1)⟩
      · rcases List.mem_append.1 h with h' | h'
        · obtain ⟨h1, h2⟩ := hok x
            (List.mem_append_right _ (List.mem_cons_of_mem _ h'))
          exact ⟨h1, le_trans h2 (hgrow_all x.1)⟩
        · have hx' : x = (e.1, k') := by simpa using h'
          subst hx'
          exact ⟨hEe.1, by rw [hk']⟩
  · -- the queued clients stay distinct
    rcases sc4 with ⟨hpe, -⟩ | ⟨k', n, hpe, -, -, -⟩
    · rw [hpe]
      have hsub : List.Sublist (q ++ base) (q ++ e :: base) :=
        List.Sublist.append_left (List.sublist_cons_self e base) q
      exact List.Nodup.sublist (hsub.map Prod.fst) hnd
    · rw [hpe]
      simp only [List.map_append, List.map_cons] at hnd ⊢
      rw [← List.append_assoc]
      have hp1 : (e.1 :: base.map Prod.fst).Perm
          (base.map Prod.fst ++ [e.1]) :=
        (List.perm_append_singleton e.1 (base.map Prod.fst)).symm
      have hperm := hp1.append_left (q.map Prod.fst)
      have hnd' := hperm.nodup hnd
      simpa using hnd'
  · -- coverage of missing clients
    intro c hm
    by_cases hc : c = e.1
    · subst hc
      rcases sc4 with ⟨-, hall⟩ | ⟨k', n, hpe, -, -, -⟩
      · omega
      · exact ⟨(e.1, k'), by rw [hpe]; simp, rfl⟩
    · have hc' : c ≠ e.1 := hc
      rw [sc2 c hc'] at hm
      obtain ⟨x, hx, hxc⟩ := hcov c hm
      have hxe : x ≠ e := by
        intro h
        rw [h] at hxc
        exact hc' hxc.symm
      have hx' : x ∈ q ++ base := by
        rcases List.mem_append.1 hx with h | h
        · exact List.mem_append_left _ h
        · rcases List.mem_cons.1 h with h' | h'
          · exact absurd h' hxe
          · exact List.mem_append_right _ h'
      refine ⟨x, ?_, hxc⟩
      rcases List.mem_append.1 hx' with h | h
      · exact List.mem_append_left _ h
      · rcases sc4 with ⟨hpe, -⟩ | ⟨k', n, hpe, -, -, -⟩
        · rw [hpe]
          exact List.mem_append_right _ h
        · rw [hpe]
          exact List.mem_append_right _ (List.mem_append_left _ h)
  · -- shape of the new buffer
    rcases sc4 with ⟨hpe, -⟩ | ⟨k', n, hpe, -, -, -⟩
    · exact Or.inl hpe
    · exact Or.inr ⟨k', hpe⟩
  · -- popping an admissible client admits a node
    intro c₀ hadm he₁
    subst he₁
    rcases sc5 with hM | ⟨h1, -⟩
    · rcases sc4 with ⟨-, hall⟩ | ⟨k', n, -, hk', hget, dep, hdep, hdc⟩
      · have := hadm.1
        omega
      · exfalso
        rw [hM] at hk'
        rw [hk'] at hget
        have := hadm.2 n hget dep hdep
        rw [hM] at hdc
        rw [this] at hdc
        cases hdc
    · exact h1

theorem mergeLoopStep_done_eq (other d : TestDag) :
    mergeLoopStep other d [] [] = .done d := by
  simp [mergeLoopStep]

theorem mergeLoopStep_pop (other d : TestDag) (q : List (Nat × Nat))
    (e : Nat × Nat) (pend : List (Nat × Nat)) :
    mergeLoopStep other d (q ++ [e]) pend =
      .cont (mergeScan d pend ((nodesOf other e.1).drop e.2) e.2).1 q
        (mergeScan d pend ((nodesOf other e.1).drop e.2) e.2).2 := by
  simp [mergeLoopStep, nodesOf, List.getLast?_concat, List.dropLast_concat]

theorem mergeLoopStep_swap (other d : TestDag) (q : List (Nat × Nat))
    (e : Nat × Nat) :
    mergeLoopStep other d [] (q ++ [e]) =
      .cont (mergeScan d [] ((nodesOf other e.1).drop e.2) e.2).1 q
        (mergeScan d [] ((nodesOf other e.1).drop e.2) e.2).2 := by
  simp [mergeLoopStep, nodesOf, List.getLast?_concat, List.dropLast_concat]

/-- The pending loop of `TestDag::merge` admits every missing node
within the supplied fuel: the queue always holds an entry whose client
can make progress, and it is popped after at most `dd` further
iterations. -/
theorem loop_complete {A other : TestDag} (wo : DagWF other)
    (hco : Compat A other) :
    ∀ (fuel : Nat) (M : TestDag) (cur pend : List (Nat × Nat)),
      LoopInv A other M cur pend →
      (remCount other M = 0 ∧ cur.length + pend.length < fuel ∨
        ∃ c₀ dd, Admissible other M c₀ ∧ TDist cur pend c₀ dd ∧
          remCount other M * (2 * other.nodes.length + 2) + dd < fuel) →
      ∀ c, (nodesOf other c).length ≤
        (nodesOf (mergeLoop other fuel M cur pend) c).length := by
  intro fuel
  induction fuel with
  | zero =>
    intro M cur pend _ hF
    exfalso
    rcases hF with ⟨-, h⟩ | ⟨c₀, dd, -, -, h⟩ <;> omega
  | succ f ihf =>
    intro M cur pend hLI hF
    obtain ⟨hI, hok, hnd, hcov⟩ := hLI
    rcases List.eq_nil_or_concat cur with hcur | ⟨q, e, hcur⟩
    · subst hcur
      rcases List.eq_nil_or_concat pend with hpend | ⟨qp, e, hpend⟩
      · -- both queues empty: the loop is done and nothing is missing
        subst hpend
        have hdone : mergeLoop other (f + 1) M [] [] = M := by
          simp [mergeLoop, mergeLoopStep_done_eq]
        rw [hdone]
        intro c
        by_contra hlt
        push_neg at hlt
        obtain ⟨x, hx, -⟩ := hcov c hlt
        simp at hx
      · -- current is empty: the queues swap and the last entry pops
        rw [List.concat_eq_append] at hpend
        subst hpend
        have heq : ([] : List (Nat × Nat)) ++ (qp ++ [e]) =
            qp ++ e :: [] := by simp
        rw [heq] at hok hnd hcov
        obtain ⟨hLI', hgrow_all, hshape, hadm5, hrem0, hadmpop⟩ :=
          pop_step_inv wo hco hI hok hnd hcov
        have hloop : mergeLoop other (f + 1) M [] (qp ++ [e]) =
            mergeLoop other f
              (mergeScan M [] ((nodesOf other e.1).drop e.2) e.2).1 qp
              (mergeScan M [] ((nodesOf other e.1).drop e.2) e.2).2 := by
          simp only [mergeLoop, mergeLoopStep_swap]
        rw [hloop]
        apply ihf _ _ _ hLI'
        rcases hF with ⟨hrem, hcnt⟩ | ⟨c₀, dd, hadm, htd, hb⟩
        · obtain ⟨hM, hpend⟩ := hrem0 hrem
          left
          refine ⟨by rw [hM]; exact hrem, ?_⟩
          rw [hpend]
          have h1 : (qp ++ [e]).length = qp.length + 1 := by simp
          simp only [List.length_nil] at hcnt ⊢
          omega
        · rcases hadm5 with hM | ⟨hgr, hms⟩
          · -- no admission: the target entry comes one step closer
            have hne : e.1 ≠ c₀ := by
              intro h
              have := hadmpop c₀ hadm h
              rw [hM] at this
              omega
            obtain ⟨hdd1, htdall⟩ := tdist_step_swap htd hne
            right
            refine ⟨c₀, dd - 1, by rw [hM]; exact hadm, htdall _, ?_⟩
            rw [hM]
            omega
          · -- a node was admitted: the missing count drops
            have hkey := (hok e (by simp)).1
            obtain ⟨p, hp, hpe⟩ := List.mem_map.1 hkey
            have hdrop : remCount other
                (mergeScan M [] ((nodesOf other e.1).drop e.2) e.2).1 <
                remCount other M := by
              apply remCount_lt hgrow_all
              exact ⟨p, hp, by rw [hpe]; exact ⟨hgr, hms⟩⟩
            have hrem1 : 1 ≤ remCount other M := by
              by_contra h0
              have h0' : remCount other M = 0 := by omega
              have h1 := remCount_zero h0' c₀
              have h2 := hadm.1
              omega
            have hKle : 2 * other.nodes.length + 2 ≤
                remCount other M * (2 * other.nodes.length + 2) := by
              calc 2 * other.nodes.length + 2
                  = 1 * (2 * other.nodes.length + 2) := by ring
                _ ≤ remCount other M * (2 * other.nodes.length + 2) :=
                    Nat.mul_le_mul_right _ hrem1
            have hcnt' : qp.length +
                (mergeScan M [] ((nodesOf other e.1).drop e.2)
                  e.2).2.length ≤ other.nodes.length := by
              have := entries_le_keys hLI'.2.1 hLI'.2.2.1
              simpa using this
            by_cases hz : remCount other
                (mergeScan M [] ((nodesOf other e.1).drop e.2) e.2).1 = 0
            · left
              refine ⟨hz, ?_⟩
              omega
            · right
              obtain ⟨c₂, hadm₂⟩ := merge_progress wo hLI'.1 hz
              obtain ⟨x, hx, hxc⟩ := hLI'.2.2.2 c₂ hadm₂.1
              refine ⟨c₂, _, hadm₂, tdist_of_mem hx hxc, ?_⟩
              have hmul : remCount other
                  (mergeScan M [] ((nodesOf other e.1).drop e.2) e.2).1 *
                  (2 * other.nodes.length + 2) ≤
                  (remCount other M - 1) *
                    (2 * other.nodes.length + 2) :=
                Nat.mul_le_mul_right _ (by omega)
              have hsub : (remCount other M - 1) *
                  (2 * other.nodes.length + 2) =
                  remCount other M * (2 * other.nodes.length + 2) -
                    1 * (2 * other.nodes.length + 2) :=
                Nat.sub_mul _ _ _
              omega
    · -- pop the last entry of current
      rw [List.concat_eq_append] at hcur
      subst hcur
      have heq : (q ++ [e]) ++ pend = q ++ e :: pend := by simp
      rw [heq] at hok hnd hcov
      obtain ⟨hLI', hgrow_all, hshape, hadm5, hrem0, hadmpop⟩ :=
        pop_step_inv wo hco hI hok hnd hcov
      have hloop : mergeLoop other (f + 1) M (q ++ [e]) pend =
          mergeLoop other f
            (mergeScan M pend ((nodesOf other e.1).drop e.2) e.2).1 q
            (mergeScan M pend ((nodesOf other e.1).drop e.2) e.2).2 := by
        simp only [mergeLoop, mergeLoopStep_pop]
      rw [hloop]
      apply ihf _ _ _ hLI'
      rcases hF with ⟨hrem, hcnt⟩ | ⟨c₀, dd, hadm, htd, hb⟩
      · obtain ⟨hM, hpend⟩ := hrem0 hrem
        left
        refine ⟨by rw [hM]; exact hrem, ?_⟩
        rw [hpend]
        have h1 : (q ++ [e]).length = q.length + 1 := by simp
        omega
      · rcases hadm5 with hM | ⟨hgr, hms⟩
        · -- no admission: the target entry comes one step closer
          have hne : e.1 ≠ c₀ := by
            intro h
            have := hadmpop c₀ hadm h
            rw [hM] at this
            omega
          obtain ⟨hdd1, htd1, htd2⟩ := tdist_step_pop htd hne
          right
          refine ⟨c₀, dd - 1, by rw [hM]; exact hadm, ?_, ?_⟩
          · rcases hshape with hpe | ⟨k', hpe⟩
            · rw [hpe]
              exact htd1
            · rw [hpe]
              exact htd2 (e.1, k')
          · rw [hM]
            omega
        · -- a node was admitted: the missing count drops
          have hkey := (hok e (by simp)).1
          obtain ⟨p, hp, hpe⟩ := List.mem_map.1 hkey
          have hdrop : remCount other
              (mergeScan M pend ((nodesOf other e.1).drop e.2) e.2).1 <
              remCount other M := by
            apply remCount_lt hgrow_all
            exact ⟨p, hp, by rw [hpe]; exact ⟨hgr, hms⟩⟩
          have hrem1 : 1 ≤ remCount other M := by
            by_contra h0
            have h0' : remCount other M = 0 := by omega
            have h1 := remCount_zero h0' c₀
            have h2 := hadm.1
            omega
          have hKle : 2 * other.nodes.length + 2 ≤
              remCount other M * (2 * other.nodes.length + 2) := by
            calc 2 * other.nodes.length + 2
                = 1 * (2 * other.nodes.length + 2) := by ring
              _ ≤ remCount other M * (2 * other.nodes.length + 2) :=
                  Nat.mul_le_mul_right _ hrem1
          have hcnt' : q.length +
              (mergeScan M pend ((nodesOf other e.1).drop e.2)
                e.2).2.length ≤ other.nodes.length := by
            have := entries_le_keys hLI'.2.1 hLI'.2.2.1
            simpa using this
          by_cases hz : remCount other
              (mergeScan M pend ((nodesOf other e.1).drop e.2) e.2).1 = 0
          · left
            refine ⟨hz, ?_⟩
            omega
          · right
            obtain ⟨c₂, hadm₂⟩ := merge_progress wo hLI'.1 hz
            obtain ⟨x, hx, hxc⟩ := hLI'.2.2.2 c₂ hadm₂.1
            refine ⟨c₂, _, hadm₂, tdist_of_mem hx hxc, ?_⟩
            have hmul : remCount other
                (mergeScan M pend ((nodesOf other e.1).drop e.2) e.2).1 *
                (2 * other.nodes.length + 2) ≤
                (remCount other M - 1) *
                  (2 * other.nodes.length + 2) :=
              Nat.mul_le_mul_right _ (by omega)
            have hsub : (remCount other M - 1) *
                (2 * other.nodes.length + 2) =
                remCount other M * (2 * other.nodes.length + 2) -
                  1 * (2 * other.nodes.length + 2) :=
              Nat.sub_mul _ _ _
            omega

/-- `A.merge other` takes in every stored node of `other`: per client
the merged list is at least as long as `other`'s. -/
theorem merge_complete {A other : TestDag} (wa : DagWF A) (wo : DagWF other)
    (hco : Compat A other) :
    ∀ c, (nodesOf other c).length ≤ (nodesOf (A.merge other) c).length := by
  have hI0 : MInv A other A := by
    refine ⟨wa, hco, rfl, fun c => ListLe_refl _, fun c => ?_⟩
    unfold unionOf
    by_cases h : (nodesOf A c).length < (nodesOf other c).length
    · simp only [h, ite_true]
      exact ListLe_of_length_le (Or.symm (hco c)) (by omega)
    · simp [h, ListLe_refl]
  obtain ⟨o1, o2, o3, o4⟩ := outer_spec wo hco other.nodes [] A []
    (by simp) hI0 (by intro x hx; cases hx) (by simp)
    (by intro x hx; cases hx)
    (by
      intro c hm
      refine Or.inr ?_
      have hne : nodesOf other c ≠ [] := by
        intro h0
        rw [h0] at hm
        simp at hm
      obtain ⟨p, hp, hpc⟩ := List.mem_map.1 (key_of_nodesOf_ne hne)
      exact ⟨p, hp, hpc⟩)
  have hLI : LoopInv A other (mergeOuter A [] other.nodes).1
      (mergeOuter A [] other.nodes).2 [] := by
    refine ⟨o1, ?_, ?_, ?_⟩
    · intro x hx
      rw [List.append_nil] at hx
      exact o2 x hx
    · rw [List.append_nil]
      exact o3
    · intro c hm
      obtain ⟨x, hx, hxc⟩ := o4 c hm
      exact ⟨x, by rw [List.append_nil]; exact hx, hxc⟩
  have hcnt : (mergeOuter A [] other.nodes).2.length ≤
      other.nodes.length := entries_le_keys o2 o3
  have hF : remCount other (mergeOuter A [] other.nodes).1 = 0 ∧
      (mergeOuter A [] other.nodes).2.length + ([] :
        List (Nat × Nat)).length < mergeFuel other ∨
      ∃ c₀ dd, Admissible other (mergeOuter A [] other.nodes).1 c₀ ∧
        TDist (mergeOuter A [] other.nodes).2 [] c₀ dd ∧
        remCount other (mergeOuter A [] other.nodes).1 *
          (2 * other.nodes.length + 2) + dd < mergeFuel other := by
    by_cases hz : remCount other (mergeOuter A [] other.nodes).1 = 0
    · left
      refine ⟨hz, ?_⟩
      unfold mergeFuel
      have h1 : 1 * (2 * other.nodes.length + 3) ≤
          ((allNodes other).length + 1) * (2 * other.nodes.length + 3) :=
        Nat.mul_le_mul_right _ (by omega)
      simp only [List.length_nil]
      omega
    · right
      obtain ⟨c₂, hadm₂⟩ := merge_progress wo o1 hz
      obtain ⟨x, hx, hxc⟩ := o4 c₂ hadm₂.1
      refine ⟨c₂, _, hadm₂,
        tdist_of_mem (List.mem_append_left _ hx) hxc, ?_⟩
      have hV := remCount_le_allNodes other (mergeOuter A [] other.nodes).1 wo
      have hmul : remCount other (mergeOuter A [] other.nodes).1 *
          (2 * other.nodes.length + 2) ≤
          (allNodes other).length * (2 * other.nodes.length + 2) :=
        Nat.mul_le_mul_right _ hV
      have hexp : ((allNodes other).length + 1) *
          (2 * other.nodes.length + 3) =
          (allNodes other).length * (2 * other.nodes.length + 2) +
            (allNodes other).length + 2 * other.nodes.length + 3 := by
        ring
      unfold mergeFuel
      simp only [List.length_nil]
      omega
  intro c
  have := loop_complete wo hco (mergeFuel other)
    (mergeOuter A [] other.nodes).1 (mergeOuter A [] other.nodes).2 []
    hLI hF c
  exact this

theorem unionOf_comm {A B : TestDag} (hco : Compat A B) (c : Nat) :
    unionOf A B c = unionOf B A c := by
  unfold unionOf
  rcases Nat.lt_trichotomy (nodesOf A c).length (nodesOf B c).length with
    h | h | h
  · rw [if_pos h, if_neg (by omega)]
  · have heq : nodesOf A c = nodesOf B c := by
      rcases hco c with hle | hle
      · exact ListLe_antisym hle
          (ListLe_of_length_le (Or.inl hle) (by omega))
      · exact (ListLe_antisym hle
          (ListLe_of_length_le (Or.inl hle) (by omega))).symm
    rw [if_neg (by omega), if_neg (by omega), heq]
  · rw [if_neg (by omega), if_pos h]

/-- The merged state holds, per client, exactly the longer of the two
lists. -/
theorem merged_eq_union {A B : TestDag} (wa : DagWF A) (wb : DagWF B)
    (hco : Compat A B) (c : Nat) :
    nodesOf (A.merge B) c = unionOf A B c := by
  have hI := merge_minv wa wb hco
  have hcompl := merge_complete wa wb hco c
  have hub := hI.2.2.2.2 c
  have hgrow := hI.2.2.2.1 c
  have hulen : (unionOf A B c).length ≤
      (nodesOf (A.merge B) c).length := by
    unfold unionOf
    by_cases h : (nodesOf A c).length < (nodesOf B c).length
    · simp only [h, ite_true]
      exact hcompl
    · simp only [h, ite_false]
      exact ListLe_length hgrow
  exact ListLe_antisym hub (ListLe_of_length_le (Or.inl hub) hulen)

theorem mem_allNodes_iff {d : TestDag} (wf : DagWF d) {n : TestNode} :
    n ∈ allNodes d ↔ n ∈ nodesOf d n.id.clientId :=
  ⟨nodesOf_of_mem_allNodes wf.keys_nodup wf.keys_match,
    mem_allNodes_of_nodesOf⟩

theorem scan_all_contained :
    ∀ (l : List TestNode) (d : TestDag) (p : List (Nat × Nat)) (i : Nat),
      (∀ n ∈ l, d.contains n.id = true) → mergeScan d p l i = (d, p) := by
  intro l
  induction l with
  | nil => intro d p i _; rfl
  | cons n rest ih =>
    intro d p i h
    have he : tryPushNode d n p i = (d, p, false) := by
      simp [tryPushNode, h n (List.mem_cons_self _ _)]
    simp only [mergeScan, he]
    exact ih d p (i + 1) fun x hx => h x (List.mem_cons_of_mem _ hx)

theorem outer_all_contained :
    ∀ (es : List (Nat × List TestNode)) (d : TestDag)
      (p : List (Nat × Nat)),
      (∀ pr ∈ es, ∀ n ∈ pr.2, d.contains n.id = true) →
      mergeOuter d p es = (d, p) := by
  intro es
  induction es with
  | nil => intro d p _; rfl
  | cons pr rest ih =>
    intro d p h
    simp only [mergeOuter]
    rw [scan_all_contained pr.2 d p 0 (h pr (List.mem_cons_self _ _))]
    exact ih d p fun x hx => h x (List.mem_cons_of_mem _ hx)

theorem mergeLoop_nil (other d : TestDag) (n : Nat) :
    mergeLoop other (n + 1) d [] [] = d := by
  simp [mergeLoop, mergeLoopStep_done_eq]

/-- Merging a history that is already fully contained is a literal
no-op. -/
theorem merge_absorb {M B : TestDag} (wm : DagWF M) (wb : DagWF B)
    (hcm : Compat M B)
    (hlen : ∀ c, (nodesOf B c).length ≤ (nodesOf M c).length) :
    M.merge B = M := by
  have hcont : ∀ pr ∈ B.nodes, ∀ n ∈ pr.2, M.contains n.id = true := by
    intro pr hpr n hn
    have hmem : n ∈ nodesOf B n.id.clientId := entry_mem_nodesOf wb hpr n hn
    obtain ⟨i, hi, hig⟩ := List.getElem_of_mem hmem
    have hcb := (contains_boundary wb wm hcm hi).2
      (lt_of_lt_of_le hi (hlen _))
    rw [hig] at hcb
    exact hcb
  have houter : mergeOuter M [] B.nodes = (M, []) :=
    outer_all_contained B.nodes M [] hcont
  show mergeLoop B (mergeFuel B) (mergeOuter M [] B.nodes).1
    (mergeOuter M [] B.nodes).2 [] = M
  rw [houter]
  have hfuel : mergeFuel B =
      ((allNodes B).length + 1) * (2 * B.nodes.length + 3) + 1 := rfl
  rw [hfuel]
  exact mergeLoop_nil B M _

/-- C2: for any two reachable histories A and B, `A.merge(B)` and
`B.merge(A)` hold identical per-client node lists, identical version
vectors and identical frontiers (as sets); and re-merging an already
merged history is a literal no-op, `(A.merge(B)).merge(B) =
A.merge(B)`, leaving nodes, frontier, version vector and next_lamport
unchanged. -/
theorem C2_merge_comm_idem {s : List TestDag} (hs : Reach s) {i j : Nat}
    (hi : i < s.length) (hj : j < s.length) :
    (∀ c, nodesOf ((s.get ⟨i, hi⟩).merge (s.get ⟨j, hj⟩)) c =
      nodesOf ((s.get ⟨j, hj⟩).merge (s.get ⟨i, hi⟩)) c) ∧
    (∀ c, vvGet ((s.get ⟨i, hi⟩).merge (s.get ⟨j, hj⟩)) c =
      vvGet ((s.get ⟨j, hj⟩).merge (s.get ⟨i, hi⟩)) c) ∧
    (∀ id, id ∈ ((s.get ⟨i, hi⟩).merge (s.get ⟨j, hj⟩)).frontier ↔
      id ∈ ((s.get ⟨j, hj⟩).merge (s.get ⟨i, hi⟩)).frontier) ∧
    ((s.get ⟨i, hi⟩).merge (s.get ⟨j, hj⟩)).merge (s.get ⟨j, hj⟩) =
      (s.get ⟨i, hi⟩).merge (s.get ⟨j, hj⟩) := by
  have hw := reach_wf hs
  have wa := hw.wf i hi
  have wb := hw.wf j hj
  have hco : Compat (s.get ⟨i, hi⟩) (s.get ⟨j, hj⟩) := sys_compat hw hi hj
  have hco' : Compat (s.get ⟨j, hj⟩) (s.get ⟨i, hi⟩) := sys_compat hw hj hi
  have hnodes : ∀ c,
      nodesOf ((s.get ⟨i, hi⟩).merge (s.get ⟨j, hj⟩)) c =
      nodesOf ((s.get ⟨j, hj⟩).merge (s.get ⟨i, hi⟩)) c := by
    intro c
    rw [merged_eq_union wa wb hco c, merged_eq_union wb wa hco' c,
      unionOf_comm hco c]
  have wm1 : DagWF ((s.get ⟨i, hi⟩).merge (s.get ⟨j, hj⟩)) :=
    (merge_minv wa wb hco).1
  have wm2 : DagWF ((s.get ⟨j, hj⟩).merge (s.get ⟨i, hi⟩)) :=
    (merge_minv wb wa hco').1
  refine ⟨hnodes, ?_, ?_, ?_⟩
  · intro c
    rw [wm1.vv_ok c, wm2.vv_ok c, hnodes c]
  · intro id
    rw [wm1.fr_char id, wm2.fr_char id]
    have hall : ∀ n : TestNode,
        n ∈ allNodes ((s.get ⟨i, hi⟩).merge (s.get ⟨j, hj⟩)) ↔
        n ∈ allNodes ((s.get ⟨j, hj⟩).merge (s.get ⟨i, hi⟩)) := by
      intro n
      rw [mem_allNodes_iff wm1, mem_allNodes_iff wm2, hnodes]
    constructor
    · rintro ⟨⟨n, hn, hnid⟩, hded⟩
      exact ⟨⟨n, (hall n).1 hn, hnid⟩, fun m hm => hded m ((hall m).2 hm)⟩
    · rintro ⟨⟨n, hn, hnid⟩, hded⟩
      exact ⟨⟨n, (hall n).2 hn, hnid⟩, fun m hm => hded m ((hall m).1 hm)⟩
  · exact merge_absorb wm1 wb (merge_minv wa wb hco).2.1
      (merge_complete wa wb hco)

theorem C2_merge_comm_idem_witness :
    Reach (initSystem 2) ∧
    ((∀ c, nodesOf (((initSystem 2).get ⟨0, by decide⟩).merge
        ((initSystem 2).get ⟨1, by decide⟩)) c =
      nodesOf (((initSystem 2).get ⟨1, by decide⟩).merge
        ((initSystem 2).get ⟨0, by decide⟩)) c) ∧
    (∀ c, vvGet (((initSystem 2).get ⟨0, by decide⟩).merge
        ((initSystem 2).get ⟨1, by decide⟩)) c =
      vvGet (((initSystem 2).get ⟨1, by decide⟩).merge
        ((initSystem 2).get ⟨0, by decide⟩)) c) ∧
    (∀ id, id ∈ (((initSystem 2).get ⟨0, by decide⟩).merge
        ((initSystem 2).get ⟨1, by decide⟩)).frontier ↔
      id ∈ (((initSystem 2).get ⟨1, by decide⟩).merge
        ((initSystem 2).get ⟨0, by decide⟩)).frontier) ∧
    (((initSystem 2).get ⟨0, by decide⟩).merge
        ((initSystem 2).get ⟨1, by decide⟩)).merge
        ((initSystem 2).get ⟨1, by decide⟩) =
      ((initSystem 2).get ⟨0, by decide⟩).merge
        ((initSystem 2).get ⟨1, by decide⟩)) :=
  ⟨Reach.init 2, C2_merge_comm_idem (Reach.init 2) (by decide) (by decide)⟩
